import Mathlib

/-!
Verification of the matrix-tool core (`src/Task3/matrix_tool.py`).

The numeric model is exact rationals `ℚ`: Python floats are idealised as the
decimal rationals they denote, so decimal-literal parsing, arithmetic and
decimal rendering are exact.  String processing is modelled at the level of
character lists, faithful to the Python string builtins the source uses
(`str.strip`, `str.splitlines`, `str.split`, `str.replace`, `float`,
`round`, `str` on numbers, `%.6g` formatting), restricted to ASCII text and
finite decimal literals (`inf`/`nan` literals and digit-separator
underscores, which denote no plain decimal, are outside the model).
-/

deriving instance DecidableEq for Except

set_option maxRecDepth 200000

namespace MatrixTool

/-- Whitespace characters recognised by Python's `str.strip` / `str.split`
(ASCII subset: space, tab, newline, carriage return, vertical tab, form feed). -/
def isPySpace (c : Char) : Bool :=
  decide (c = ' ' ∨ c = '\t' ∨ c = '\n' ∨ c = '\r' ∨ c = '\x0b' ∨ c = '\x0c')

/-- Model of `str.strip()`: drop leading and trailing whitespace. -/
def stripChars (l : List Char) : List Char :=
  ((l.dropWhile isPySpace).reverse.dropWhile isPySpace).reverse

/-- Model of `str.strip()` at the `String` level. -/
def pyStrip (s : String) : String := ⟨stripChars s.data⟩

/-- Worker for `str.splitlines`: `acc` is the current (reversed) partial line.
Line boundaries are newline, carriage return, and the CRLF pair. -/
def splitlinesAux : List Char → List Char → List (List Char)
  | [], acc => if acc = [] then [] else [acc.reverse]
  | '\r' :: '\n' :: rest, acc => acc.reverse :: splitlinesAux rest []
  | '\r' :: rest, acc => acc.reverse :: splitlinesAux rest []
  | '\n' :: rest, acc => acc.reverse :: splitlinesAux rest []
  | c :: rest, acc => splitlinesAux rest (c :: acc)

/-- Model of `str.splitlines()`. -/
def splitlinesC (l : List Char) : List (List Char) := splitlinesAux l []

/-- Model of `str.replace(',', ' ')`. -/
def replaceComma (l : List Char) : List Char :=
  l.map (fun c => if c = ',' then ' ' else c)

/-- Worker for `str.split()`: split on runs of whitespace, dropping empties;
`acc` is the current (reversed) partial token. -/
def splitWsAux : List Char → List Char → List (List Char)
  | [], acc => if acc = [] then [] else [acc.reverse]
  | c :: rest, acc =>
    if isPySpace c then
      if acc = [] then splitWsAux rest []
      else acc.reverse :: splitWsAux rest []
    else splitWsAux rest (c :: acc)

/-- Model of `str.split()` with no separator argument. -/
def splitWs (l : List Char) : List (List Char) := splitWsAux l []

/-- The tokens of one input line: `ln.replace(',', ' ').split()`
(the source's extra `if p` filter is a no-op, `split()` never yields `''`). -/
def tokensOf (ln : List Char) : List (List Char) := splitWs (replaceComma ln)

/-- The decimal digit characters, as produced by Python's number rendering. -/
def digitCh (d : ℕ) : Char :=
  match d with
  | 0 => '0' | 1 => '1' | 2 => '2' | 3 => '3' | 4 => '4'
  | 5 => '5' | 6 => '6' | 7 => '7' | 8 => '8' | _ => '9'

/-- Fuel-driven most-significant-first decimal digits of a natural number. -/
def natDigitsAux : ℕ → ℕ → List Char
  | 0, _ => []
  | fuel + 1, n =>
    if n < 10 then [digitCh n]
    else natDigitsAux fuel (n / 10) ++ [digitCh (n % 10)]

/-- Decimal digit string of a natural number (`"0"` for zero). -/
def natToDigits (n : ℕ) : List Char := natDigitsAux (n + 1) n

/-- Numeric value of a most-significant-first digit string. -/
def digitsVal (ds : List Char) : ℕ :=
  ds.foldl (fun a c => 10 * a + (c.toNat - 48)) 0

/-- Split a character list into its leading digit run and the remainder. -/
def spanDigits (l : List Char) : List Char × List Char :=
  (l.takeWhile Char.isDigit, l.dropWhile Char.isDigit)

/-- Optional sign prefix of a float literal, as a rational factor. -/
def readSignQ : List Char → ℚ × List Char
  | '-' :: rest => (-1, rest)
  | '+' :: rest => (1, rest)
  | l => (1, l)

/-- Optional sign prefix of an exponent, as an integer factor. -/
def readSignZ : List Char → ℤ × List Char
  | '-' :: rest => (-1, rest)
  | '+' :: rest => (1, rest)
  | l => (1, l)

/-- Fractional digit run after an optional decimal point. -/
def readFrac : List Char → List Char × List Char
  | '.' :: rest => spanDigits rest
  | l => ([], l)

/-- Exponent suffix of a Python float literal (after the `e`/`E`):
optional sign, then a nonempty digit run consuming the whole rest. -/
def pyExp (mant : ℚ) (l : List Char) : Option ℚ :=
  let s := readSignZ l
  let ed := (spanDigits s.2).1
  let l2 := (spanDigits s.2).2
  if ed = [] ∨ l2 ≠ [] then none
  else some (mant * (10 : ℚ) ^ (s.1 * (digitsVal ed : ℤ)))

/-- What follows the mantissa of a float literal: nothing, or an exponent
part introduced by `e`/`E`. -/
def pyFloatTail (mant : ℚ) : List Char → Option ℚ
  | [] => some mant
  | 'e' :: rest => pyExp mant rest
  | 'E' :: rest => pyExp mant rest
  | _ => none

/-- The unsigned part of a float literal: integer and/or fractional digit
run (at least one digit required), then the tail. -/
def pyFloatCore (sgn : ℚ) (l : List Char) : Option ℚ :=
  if (spanDigits l).1 = [] ∧ (readFrac (spanDigits l).2).1 = [] then none
  else pyFloatTail
    (sgn * ((digitsVal (spanDigits l).1 : ℚ)
      + (digitsVal (readFrac (spanDigits l).2).1 : ℚ)
          / 10 ^ (readFrac (spanDigits l).2).1.length))
    (readFrac (spanDigits l).2).2

/-- Model of Python's `float(token)` on decimal literals: optional sign,
integer and/or fractional digit run (at least one digit), optional
exponent part; anything else is rejected. -/
def pyFloat? (l : List Char) : Option ℚ :=
  pyFloatCore (readSignQ l).1 (readSignQ l).2

/-- `[float(p) for p in parts]`: all tokens of a line as numbers, or `none`
when some token is not numeric. -/
def parseTokens : List (List Char) → Option (List ℚ)
  | [] => some []
  | t :: ts =>
    match pyFloat? t, parseTokens ts with
    | some q, some qs => some (q :: qs)
    | _, _ => none

/-- The parsed row of one (already stripped, non-blank) input line. -/
def parseLine (ln : List Char) : Option (List ℚ) := parseTokens (tokensOf ln)

/-- `[ln.strip() for ln in text.strip().splitlines() if ln.strip()]`. -/
def nonBlankLinesL (text : List Char) : List (List Char) :=
  ((splitlinesC (stripChars text)).map stripChars).filter (fun ln => decide (ln ≠ []))

/-- The parse / operation error taxonomy.  Each constructor stands for one
distinct `ValueError` raised by the source (`nonNumericToken` carries the
line quoted in the message, `missingOperand` the matrix name(s) quoted in
the message). -/
inductive Err where
  | emptyInput : Err
  | nonNumericToken (line : String) : Err
  | raggedRows : Err
  | missingOperand (which : String) : Err
  | shapeMismatch : Err
  | innerDimMismatch : Err
  | notSquare : Err
deriving DecidableEq

/-- A parsed matrix: the list of rows produced by `parse_matrix`. -/
abbrev Grid := List (List ℚ)

/-- The row loop of `parse_matrix`: parse each line, raising
`Non-numeric value found in line: '...'` at the first failing line. -/
def parseRows : List (List Char) → Except Err (List (List ℚ))
  | [] => .ok []
  | ln :: rest =>
    match parseLine ln with
    | none => .error (.nonNumericToken ⟨ln⟩)
    | some r =>
      match parseRows rest with
      | .error e => .error e
      | .ok rs => .ok (r :: rs)

/-- Embedding of `parse_matrix`: strip and drop blank lines, fail on empty,
parse every line's tokens, and require all rows to have one common length
(the `{len(r) for r in rows}` set must be a singleton). -/
def parse_matrix (text : String) : Except Err (List (List ℚ)) :=
  let lines := nonBlankLinesL text.data
  if lines = [] then .error .emptyInput
  else
    match parseRows lines with
    | .error e => .error e
    | .ok rows =>
      if ((rows.map List.length).dedup).length = 1 then .ok rows
      else .error .raggedRows

/-- Join character lists with a single separator character
(Python's `sep.join`). -/
def joinSep (sep : Char) : List (List Char) → List Char
  | [] => []
  | [x] => x
  | x :: y :: rest => x ++ sep :: joinSep sep (y :: rest)

/-- Smallest decimal exponent `k ≤ 1100` with `q * 10 ^ k` integral, when one
exists.  Every Python float value is an exact decimal needing at most 1074
fractional digits, so on float-representable values this never fails. -/
def decExpQ (q : ℚ) : Option ℕ :=
  (List.range 1101).find? (fun k => decide ((q * 10 ^ k).den = 1))

/-- Left-pad with a character to the given minimum length. -/
def leftPad (c : Char) (k : ℕ) (l : List Char) : List Char :=
  List.replicate (k - l.length) c ++ l

/-- Plain decimal rendering of `n / 10 ^ k`, always with a decimal point and
at least one fractional digit, as Python's `str` renders a float whose exact
value that is (scientific notation for extreme magnitudes is not modelled;
it does not affect any property proved here). -/
def renderDecL (n : ℤ) (k : ℕ) : List Char :=
  let ds := leftPad '0' (k + 1) (natToDigits n.natAbs)
  let ip := ds.take (ds.length - k)
  let fp := ds.drop (ds.length - k)
  (if n < 0 then ['-'] else []) ++ ip ++ '.' :: (if k = 0 then ['0'] else fp)

/-- Model of Python's `str(x)` on a float holding the exact decimal value
`q`: the shortest exact decimal form (integral values keep a trailing
`.0`).  Values that are not finite decimals are never produced by the
program's float computations in this model; they render as `"0"`. -/
def pyFloatStrL (q : ℚ) : List Char :=
  match decExpQ q with
  | some k => renderDecL (q * 10 ^ k).num k
  | none => ['0']

/-- Embedding of `matrix_to_text`: rows joined by newlines, each row the
values joined by single spaces, each value rendered by `str`. -/
def matrix_to_text (mat : List (List ℚ)) : String :=
  ⟨joinSep '\n' (mat.map (fun r => joinSep ' ' (r.map pyFloatStrL)))⟩

/-- Model of Python's `round(x)` with no digits argument: round half to
even. -/
def pyRound (q : ℚ) : ℤ :=
  if q - ⌊q⌋ < 1 / 2 then ⌊q⌋
  else if 1 / 2 < q - ⌊q⌋ then ⌊q⌋ + 1
  else if ⌊q⌋ % 2 = 0 then ⌊q⌋ else ⌊q⌋ + 1

/-- Model of `str(int(...))`: optional minus sign, then decimal digits. -/
def intStr (n : ℤ) : String :=
  ⟨(if n < 0 then ['-'] else []) ++ natToDigits n.natAbs⟩

/-- Number of decimal digits of a natural number. -/
def numDigits (n : ℕ) : ℕ := (natToDigits n).length

/-- For `0 < a < 1`, the number `m ≥ 1` with `10 ^ (-m) ≤ a < 10 ^ (-m+1)`
(fuel-bounded search). -/
def negExpAux : ℚ → ℕ → ℕ
  | _, 0 => 1
  | a, fuel + 1 => if 1 ≤ a * 10 then 1 else negExpAux (a * 10) fuel + 1

/-- Decimal exponent of a positive rational: the `e` with
`10 ^ e ≤ a < 10 ^ (e + 1)`. -/
def decExp10 (a : ℚ) : ℤ :=
  if 1 ≤ a then ((numDigits (⌊a⌋).toNat : ℤ) - 1)
  else -(negExpAux a 4000 : ℤ)

/-- Drop trailing `'0'` characters. -/
def stripTrailingZeros (ds : List Char) : List Char :=
  (ds.reverse.dropWhile (fun c => decide (c = '0'))).reverse

/-- Exponent suffix of `%g` scientific notation: sign and at least two
digits. -/
def expChars (e : ℤ) : List Char :=
  let mag := natToDigits e.natAbs
  let mag2 := if mag.length < 2 then '0' :: mag else mag
  (if e < 0 then '-' else '+') :: mag2

/-- Model of Python's `f"{x:.6g}"` on the exact value `q`: round to six
significant decimal digits, strip trailing fractional zeros, and use
scientific notation when the decimal exponent is below `-4` or at least
`6`. -/
def pyFmtG6 (x : ℚ) : String :=
  if x = 0 then "0"
  else
    let a := |x|
    let e0 := decExp10 a
    let m0 := pyRound (a * (10 : ℚ) ^ ((5 : ℤ) - e0))
    let m := if m0 = 10 ^ 6 then (10 ^ 5 : ℤ) else m0
    let e := if m0 = 10 ^ 6 then e0 + 1 else e0
    let ds := natToDigits m.natAbs
    let sgn : List Char := if x < 0 then ['-'] else []
    let body : List Char :=
      if -4 ≤ e ∧ e < 6 then
        if 0 ≤ e then
          let ip := ds.take (e.toNat + 1)
          let fp := stripTrailingZeros (ds.drop (e.toNat + 1))
          ip ++ (if fp = [] then [] else '.' :: fp)
        else
          '0' :: '.' :: (List.replicate (e.natAbs - 1) '0' ++ stripTrailingZeros ds)
      else
        let rest := stripTrailingZeros (ds.drop 1)
        ds.take 1 ++ (if rest = [] then [] else '.' :: rest) ++ 'e' :: expChars e
    ⟨sgn ++ body⟩

/-- Embedding of `MatrixToolApp._fmt`: values within `1e-9` of their rounded
integer render as that integer, all others in `%.6g` style. -/
def fmtNum (x : ℚ) : String :=
  if |x - (pyRound x : ℚ)| < 1 / 10 ^ 9 then intStr (pyRound x) else pyFmtG6 x

/-- `mat.shape[0]` of the array built from the parsed rows. -/
def nrows (g : Grid) : ℕ := g.length

/-- `mat.shape[1]` of the array built from the parsed rows. -/
def ncols (g : Grid) : ℕ := (g.headD []).length

/-- The numpy shape pair `(rows, cols)`. -/
def shape (g : Grid) : ℕ × ℕ := (nrows g, ncols g)

/-- Elementwise sum `a + b` of same-shaped arrays. -/
def addG (a b : Grid) : Grid := List.zipWith (List.zipWith (· + ·)) a b

/-- Elementwise difference `a - b` of same-shaped arrays. -/
def subG (a b : Grid) : Grid := List.zipWith (List.zipWith (· - ·)) a b

/-- Column `j` of a grid. -/
def colG (b : Grid) (j : ℕ) : List ℚ := b.map (fun r => r.getD j 0)

/-- Dot product of two equal-length vectors. -/
def dotL (u v : List ℚ) : ℚ := (List.zipWith (· * ·) u v).sum

/-- Matrix product `a.dot(b)`. -/
def mulG (a b : Grid) : Grid :=
  a.map (fun ra => (List.range (ncols b)).map (fun j => dotL ra (colG b j)))

/-- Transpose `mat.T`. -/
def transposeG (g : Grid) : Grid :=
  (List.range (ncols g)).map (fun j => g.map (fun r => r.getD j 0))

/-- Fuel-driven Laplace expansion along the first row. -/
def detAux : ℕ → Grid → ℚ
  | 0, _ => 1
  | _ + 1, [] => 1
  | fuel + 1, r :: rs =>
    ((List.range r.length).map (fun j =>
      (-1 : ℚ) ^ j * r.getD j 0 * detAux fuel (rs.map (fun row => row.eraseIdx j)))).sum

/-- Determinant of a square grid (the exact value `np.linalg.det` computes,
idealised over `ℚ`). -/
def detL (g : Grid) : ℚ := detAux g.length g

/-- Embedding of `MatrixToolApp._get_matrices`: each text area is parsed
when its stripped content is non-blank, else yields an absent operand;
the first parse error aborts. -/
def get_matrices (aStr bStr : String) : Except Err (Option Grid × Option Grid) :=
  match (if pyStrip aStr = "" then Except.ok none
         else Except.map some (parse_matrix aStr)) with
  | .error e => .error e
  | .ok a =>
    match (if pyStrip bStr = "" then Except.ok none
           else Except.map some (parse_matrix bStr)) with
    | .error e => .error e
    | .ok b => .ok (a, b)

/-- Validation and result of `MatrixToolApp.add` after operand collection. -/
def add_op : Option Grid → Option Grid → Except Err Grid
  | some a, some b =>
    if shape a ≠ shape b then .error .shapeMismatch else .ok (addG a b)
  | _, _ => .error (.missingOperand "A and B")

/-- Validation and result of `MatrixToolApp.sub` after operand collection. -/
def sub_op : Option Grid → Option Grid → Except Err Grid
  | some a, some b =>
    if shape a ≠ shape b then .error .shapeMismatch else .ok (subG a b)
  | _, _ => .error (.missingOperand "A and B")

/-- Validation and result of `MatrixToolApp.mul` after operand collection. -/
def mul_op : Option Grid → Option Grid → Except Err Grid
  | some a, some b =>
    if ncols a ≠ nrows b then .error .innerDimMismatch else .ok (mulG a b)
  | _, _ => .error (.missingOperand "A and B")

/-- Validation and result of `MatrixToolApp.transpose`: the radio-selector
value chooses the operand (`'A'` selects A, anything else selects B). -/
def transpose_op (choice : String) (a b : Option Grid) : Except Err Grid :=
  match (if choice = "A" then a else b) with
  | none => .error (.missingOperand choice)
  | some m => .ok (transposeG m)

/-- Validation and result of `MatrixToolApp.determinant`. -/
def determinant_op (choice : String) (a b : Option Grid) : Except Err ℚ :=
  match (if choice = "A" then a else b) with
  | none => .error (.missingOperand choice)
  | some m =>
    if nrows m ≠ ncols m then .error .notSquare else .ok (detL m)

/-- The full `transpose` button handler: parse both text areas, then
transpose the selected operand. -/
def transposeApp (choice aStr bStr : String) : Except Err Grid :=
  match get_matrices aStr bStr with
  | .error e => .error e
  | .ok (a, b) => transpose_op choice a b

/-- The full `determinant` button handler: parse both text areas, then take
the determinant of the selected operand. -/
def determinantApp (choice aStr bStr : String) : Except Err ℚ :=
  match get_matrices aStr bStr with
  | .error e => .error e
  | .ok (a, b) => determinant_op choice a b

/-- The `current_result` slot: a matrix (`np.ndarray`) or a scalar
(`float`). -/
inductive ResultVal where
  | grid (g : Grid) : ResultVal
  | scalar (x : ℚ) : ResultVal

/-- Embedding of `MatrixToolApp.copy_result`: nothing is copied without a
result; a grid result is copied as `matrix_to_text`, a scalar as `str`. -/
def copy_result : Option ResultVal → Option String
  | none => none
  | some (.grid g) => some (matrix_to_text g)
  | some (.scalar x) => some ⟨pyFloatStrL x⟩

/-- The clipboard text the spec's words prescribe (section 4.3 form): the
same row/column layout, but every value rendered by the display formatter
`_fmt` instead of `str`.  Stated only to compare with `copy_result`. -/
def specCopyText : ResultVal → String
  | .grid g =>
    ⟨joinSep '\n' (g.map (fun r => joinSep ' ' (r.map (fun q => (fmtNum q).data))))⟩
  | .scalar x => fmtNum x

/-- Rectangularity: every row has the grid's common column count. -/
abbrev Rect (g : Grid) : Prop := ∀ r ∈ g, r.length = ncols g

/-! ### Generic list helpers -/

theorem getD_map_of_lt {α β : Type} (f : α → β) (l : List α) (d : β) (d₀ : α)
    {i : ℕ} (h : i < l.length) :
    (l.map f).getD i d = f (l.getD i d₀) := by
  rw [List.getD_eq_getElem _ _ (by simpa using h), List.getElem_map,
    List.getD_eq_getElem _ _ h]

theorem range_map_getD {α : Type} (l : List α) (d : α) :
    (List.range l.length).map (fun i => l.getD i d) = l := by
  induction l with
  | nil => rfl
  | cons a t ih =>
    rw [List.length_cons, List.range_succ_eq_map, List.map_cons, List.map_map]
    have h1 : ((fun i => (a :: t).getD i d) ∘ Nat.succ) = fun i => t.getD i d :=
      funext fun i => List.getD_cons_succ
    rw [h1, ih]
    rfl

theorem getD_range {n i : ℕ} (h : i < n) (d : ℕ) : (List.range n).getD i d = i := by
  rw [List.getD_eq_getElem _ _ (by simpa using h), List.getElem_range]

theorem range_map_sum_eq (m : ℕ) (f : ℕ → ℚ) :
    ((List.range m).map f).sum = ∑ j ∈ Finset.range m, f j := by
  induction m with
  | zero => rfl
  | succ k ih => rw [List.range_succ, List.map_append, List.sum_append,
      Finset.sum_range_succ, ih]; simp

/-! ### Shape and entry facts for the operations -/

theorem length_transposeG (m : Grid) : (transposeG m).length = ncols m := by
  simp [transposeG]

theorem mem_transposeG_length (m : Grid) : ∀ r ∈ transposeG m, r.length = nrows m := by
  intro r hr
  simp only [transposeG, List.mem_map, List.mem_range] at hr
  obtain ⟨j, _, rfl⟩ := hr
  simp [nrows]

theorem transposeG_entry (m : Grid) {i j : ℕ} (hi : i < nrows m) (hj : j < ncols m) :
    ((transposeG m).getD j []).getD i 0 = (m.getD i []).getD j 0 := by
  unfold transposeG
  rw [getD_map_of_lt _ _ _ 0 (by simpa using hj), getD_range hj,
    getD_map_of_lt _ _ _ [] hi]

theorem ncols_transposeG (m : Grid) (h : 0 < ncols m) :
    ncols (transposeG m) = nrows m := by
  obtain ⟨k, hk⟩ : ∃ k, ncols m = k + 1 := ⟨_, (Nat.succ_pred_eq_of_pos h).symm⟩
  unfold transposeG
  rw [hk, List.range_succ_eq_map, List.map_cons]
  show (m.map (fun r => r.getD 0 0)).length = nrows m
  rw [List.length_map]
  rfl

theorem transposeG_transposeG (m : Grid) (hrect : Rect m) (hsq : nrows m = ncols m) :
    transposeG (transposeG m) = m := by
  rcases Nat.eq_zero_or_pos (ncols m) with h0 | hpos
  · have hm : m = [] := List.length_eq_zero.mp (by rw [← h0, ← hsq]; rfl)
    subst hm; rfl
  · have hT : ncols (transposeG m) = nrows m := ncols_transposeG m hpos
    show (List.range (ncols (transposeG m))).map _ = m
    rw [hT]
    have hrow : ∀ i ∈ List.range (nrows m),
        (transposeG m).map (fun col => col.getD i 0) = m.getD i [] := by
      intro i hi
      have hi' : i < m.length := by simpa [nrows] using List.mem_range.mp hi
      simp only [transposeG, List.map_map]
      have hcong : ∀ j ∈ List.range (ncols m),
          ((fun col => col.getD i 0) ∘ fun j => m.map fun r => r.getD j 0) j
            = (m.getD i []).getD j 0 := by
        intro j _
        exact getD_map_of_lt _ _ _ [] hi'
      rw [List.map_congr_left hcong]
      have hmem : m.getD i [] ∈ m := by
        rw [List.getD_eq_getElem _ _ hi']; exact List.getElem_mem _
      rw [← hrect _ hmem]
      exact range_map_getD _ 0
    rw [List.map_congr_left hrow]
    simpa [nrows] using range_map_getD m ([] : List ℚ)

theorem length_mulG (a b : Grid) : (mulG a b).length = nrows a := by
  simp [mulG, nrows]

theorem mem_mulG_length (a b : Grid) : ∀ r ∈ mulG a b, r.length = ncols b := by
  intro r hr
  simp only [mulG, List.mem_map] at hr
  obtain ⟨ra, _, rfl⟩ := hr
  simp

theorem dotL_eq_sum (n : ℕ) : ∀ (u v : List ℚ), u.length = n → v.length = n →
    dotL u v = ((List.range n).map (fun k => u.getD k 0 * v.getD k 0)).sum := by
  induction n with
  | zero =>
    intro u v hu hv
    rw [List.length_eq_zero.mp hu, List.length_eq_zero.mp hv]; rfl
  | succ k ih =>
    intro u v hu hv
    rcases u with _ | ⟨x, u'⟩; · simp at hu
    rcases v with _ | ⟨y, v'⟩; · simp at hv
    have hu' : u'.length = k := by simpa using hu
    have hv' : v'.length = k := by simpa using hv
    show x * y + dotL u' v' = _
    rw [List.range_succ_eq_map, List.map_cons, List.sum_cons, List.map_map]
    have h1 : ((fun n => (x :: u').getD n 0 * (y :: v').getD n 0) ∘ Nat.succ)
        = fun n => u'.getD n 0 * v'.getD n 0 := by
      funext n
      simp only [Function.comp_apply, List.getD_cons_succ]
    rw [h1, ← ih u' v' hu' hv']
    rfl

theorem mulG_entry (a b : Grid) (ha : Rect a) (hdim : ncols a = nrows b)
    {i j : ℕ} (hi : i < nrows a) (hj : j < ncols b) :
    ((mulG a b).getD i []).getD j 0 =
      ((List.range (ncols a)).map
        (fun k => (a.getD i []).getD k 0 * (b.getD k []).getD j 0)).sum := by
  unfold mulG
  rw [getD_map_of_lt _ _ _ [] hi, getD_map_of_lt _ _ _ 0 (by simpa using hj),
    getD_range hj]
  have hmem : a.getD i [] ∈ a := by
    rw [List.getD_eq_getElem _ _ hi]; exact List.getElem_mem _
  have hlen : (a.getD i []).length = ncols a := ha _ hmem
  have hcol : (colG b j).length = ncols a := by rw [hdim]; simp [colG, nrows]
  rw [dotL_eq_sum (ncols a) _ _ hlen hcol]
  refine congrArg List.sum (List.map_congr_left ?_)
  intro k hk
  have hb : nrows b = b.length := rfl
  have hk' : k < b.length := by
    have h1 := List.mem_range.mp hk
    omega
  congr 1
  simp only [colG]
  rw [getD_map_of_lt _ _ _ [] hk']

theorem zipGrid_length (f : ℚ → ℚ → ℚ) (a b : Grid) (h : nrows a = nrows b) :
    (List.zipWith (List.zipWith f) a b).length = nrows a := by
  have h' : a.length = b.length := h
  rw [List.length_zipWith]
  show a.length ⊓ b.length = a.length
  omega

theorem zipGrid_ncols (f : ℚ → ℚ → ℚ) (a b : Grid)
    (h1 : nrows a = nrows b) (h2 : ncols a = ncols b) :
    ncols (List.zipWith (List.zipWith f) a b) = ncols a := by
  cases a with
  | nil => rfl
  | cons a0 as =>
    cases b with
    | nil => exact absurd h1 (by simp [nrows])
    | cons b0 bs =>
      show (List.zipWith f a0 b0).length = a0.length
      have h2' : a0.length = b0.length := h2
      rw [List.length_zipWith]
      omega

theorem zipGrid_entry (f : ℚ → ℚ → ℚ) (a b : Grid) (ha : Rect a) (hb : Rect b)
    (h1 : nrows a = nrows b) (h2 : ncols a = ncols b)
    {i j : ℕ} (hi : i < nrows a) (hj : j < ncols a) :
    ((List.zipWith (List.zipWith f) a b).getD i []).getD j 0
      = f ((a.getD i []).getD j 0) ((b.getD i []).getD j 0) := by
  have hl : a.length = b.length := h1
  have hia : i < a.length := hi
  have hib : i < b.length := by omega
  have hiz : i < (List.zipWith (List.zipWith f) a b).length := by
    rw [List.length_zipWith]; omega
  have hja : j < (a.getD i []).length := by
    rw [List.getD_eq_getElem _ _ hia, ha _ (List.getElem_mem _)]; exact hj
  have hjb : j < (b.getD i []).length := by
    rw [List.getD_eq_getElem _ _ hib, hb _ (List.getElem_mem _), ← h2]; exact hj
  rw [List.getD_eq_getElem _ _ hiz, List.getElem_zipWith]
  have hjz : j < (List.zipWith f a[i] b[i]).length := by
    rw [List.length_zipWith]
    rw [List.getD_eq_getElem _ _ hia] at hja
    rw [List.getD_eq_getElem _ _ hib] at hjb
    omega
  rw [List.getD_eq_getElem _ _ hjz, List.getElem_zipWith,
    List.getD_eq_getElem _ _ hia, List.getD_eq_getElem _ _ hib,
    List.getD_eq_getElem a[i] 0 (by rwa [List.getD_eq_getElem _ _ hia] at hja),
    List.getD_eq_getElem b[i] 0 (by rwa [List.getD_eq_getElem _ _ hib] at hjb)]

/-! ### The list determinant agrees with the Mathlib determinant -/

theorem val_succAbove {n : ℕ} (j : Fin (n + 1)) (k : Fin n) :
    ((j.succAbove k : Fin (n + 1)) : ℕ)
      = if (k : ℕ) < (j : ℕ) then (k : ℕ) else (k : ℕ) + 1 := by
  rw [Fin.succAbove]
  split
  · next h =>
    simp only [Fin.lt_def, Fin.coe_castSucc] at h
    simp [h]
  · next h =>
    simp only [Fin.lt_def, Fin.coe_castSucc] at h
    simp [h]

theorem detL_eq_det (n : ℕ) : ∀ (g : Grid), g.length = n → (∀ r ∈ g, r.length = n) →
    detL g = Matrix.det (Matrix.of (fun i j : Fin n => (g.getD (i : ℕ) []).getD (j : ℕ) 0)) := by
  induction n with
  | zero =>
    intro g hg _
    rw [List.length_eq_zero.mp hg, Matrix.det_fin_zero]
    rfl
  | succ n ih =>
    intro g hg hrect
    rcases g with _ | ⟨r, rs⟩
    · simp at hg
    have hrs : rs.length = n := by simpa using hg
    have hr : r.length = n + 1 := hrect r (List.mem_cons_self _ _)
    have lhs_eq : detL (r :: rs)
        = ∑ j ∈ Finset.range (n + 1),
            (-1 : ℚ) ^ j * r.getD j 0 * detL (rs.map (fun row => row.eraseIdx j)) := by
      show detAux (rs.length + 1) (r :: rs) = _
      rw [detAux, range_map_sum_eq, hr]
      refine Finset.sum_congr rfl fun j _ => ?_
      congr 1
      show detAux rs.length _ = detL _
      unfold detL
      rw [List.length_map]
    rw [lhs_eq, Matrix.det_succ_row_zero,
      ← Fin.sum_univ_eq_sum_range
        (fun j => (-1 : ℚ) ^ j * r.getD j 0 * detL (rs.map (fun row => row.eraseIdx j)))
        (n + 1)]
    refine Finset.sum_congr rfl fun j _ => ?_
    have hA0 : Matrix.of (fun i j : Fin (n + 1) => ((r :: rs).getD (i : ℕ) []).getD (j : ℕ) 0) 0 j
        = r.getD (j : ℕ) 0 := rfl
    rw [hA0]
    have hminor : detL (rs.map (fun row => row.eraseIdx (j : ℕ)))
        = Matrix.det (Matrix.of (fun i k : Fin n =>
            ((rs.map (fun row => row.eraseIdx (j : ℕ))).getD (i : ℕ) []).getD (k : ℕ) 0)) := by
      refine ih _ (by rw [List.length_map, hrs]) ?_
      intro row hrow
      obtain ⟨r', hr', rfl⟩ := List.mem_map.mp hrow
      have hlen' : r'.length = n + 1 := hrect r' (List.mem_cons_of_mem _ hr')
      rw [List.length_eraseIdx, hlen']
      have hjlt : (j : ℕ) < n + 1 := j.isLt
      simp [hjlt]
    rw [hminor]
    refine congrArg (fun M => (-1 : ℚ) ^ (j : ℕ) * r.getD (j : ℕ) 0 * Matrix.det M) ?_
    refine Matrix.ext fun i k => ?_
    simp only [Matrix.submatrix_apply, Matrix.of_apply]
    have hi' : (i : ℕ) < rs.length := by rw [hrs]; exact i.isLt
    rw [Fin.val_succ, List.getD_cons_succ, val_succAbove j k, getD_map_of_lt _ _ _ [] hi']
    set row := rs.getD (i : ℕ) [] with hrow_def
    have hrowmem : row ∈ rs := by
      rw [hrow_def, List.getD_eq_getElem _ _ hi']; exact List.getElem_mem _
    have hrowlen : row.length = n + 1 := hrect row (List.mem_cons_of_mem _ hrowmem)
    have herlen : (row.eraseIdx (j : ℕ)).length = n := by
      rw [List.length_eraseIdx, hrowlen]
      have hjlt : (j : ℕ) < n + 1 := j.isLt
      simp [hjlt]
    have hk : (k : ℕ) < (row.eraseIdx (j : ℕ)).length := by rw [herlen]; exact k.isLt
    have hkrow : (k : ℕ) < row.length := by rw [hrowlen]; omega
    have hkrow1 : (k : ℕ) + 1 < row.length := by rw [hrowlen]; omega
    rw [List.getD_eq_getElem _ _ hk, List.getElem_eraseIdx]
    split
    · rw [List.getD_eq_getElem _ _ hkrow]
    · rw [List.getD_eq_getElem _ _ hkrow1]

/-! ### Claim theorems for the operation engine -/

/-- Claim C4: Multiply requires both operands present and fails with
`InnerDimMismatch` when `cols A ≠ rows B`; otherwise it returns the standard
matrix product of shape `rows A × cols B` (entry `i j` is the dot product of
row `i` of `A` with column `j` of `B`).  In particular a 2×3 by 3×2 product
succeeds with a 2×2 result, and a 2×3 by 2×2 product fails with
`InnerDimMismatch`. -/
theorem mul_op_spec :
    (∀ b, mul_op none b = .error (.missingOperand "A and B"))
    ∧ (∀ a, mul_op a none = .error (.missingOperand "A and B"))
    ∧ (∀ a b : Grid, ncols a ≠ nrows b →
        mul_op (some a) (some b) = .error .innerDimMismatch)
    ∧ (∀ a b : Grid, ncols a = nrows b →
        mul_op (some a) (some b) = .ok (mulG a b))
    ∧ (∀ a b : Grid, (mulG a b).length = nrows a)
    ∧ (∀ a b : Grid, ∀ r ∈ mulG a b, r.length = ncols b)
    ∧ (∀ (a b : Grid), Rect a → ncols a = nrows b → ∀ (i j : ℕ),
        i < nrows a → j < ncols b →
        ((mulG a b).getD i []).getD j 0
          = ((List.range (ncols a)).map
              (fun k => (a.getD i []).getD k 0 * (b.getD k []).getD j 0)).sum)
    ∧ mul_op (some [[1,2,3],[4,5,6]]) (some [[7,8],[9,10],[11,12]])
        = .ok [[58,64],[139,154]]
    ∧ shape (mulG [[(1:ℚ),2,3],[4,5,6]] [[7,8],[9,10],[11,12]]) = (2, 2)
    ∧ mul_op (some [[1,2,3],[4,5,6]]) (some [[1,2],[3,4]])
        = .error .innerDimMismatch := by
  refine ⟨fun b => rfl, fun a => ?_, fun a b h => ?_, fun a b h => ?_,
    length_mulG, mem_mulG_length, fun a b ha hd i j hi hj => mulG_entry a b ha hd hi hj,
    ?_, ?_, ?_⟩
  · cases a <;> rfl
  · simp only [mul_op]
    rw [if_pos h]
  · simp only [mul_op]
    rw [if_neg (not_not_intro h)]
  · with_unfolding_all rfl
  · with_unfolding_all rfl
  · with_unfolding_all rfl

/-- Witness for C4 at concrete inputs: the inner-dimension hypotheses are
discharged by computation. -/
theorem mul_op_spec_witness :
    mul_op (some [[(1:ℚ),2],[3,4]]) (some [[5,6],[7,8]])
      = .ok (mulG [[(1:ℚ),2],[3,4]] [[5,6],[7,8]])
    ∧ mul_op (some [[(1:ℚ),2,3]]) (some [[1,2],[3,4]]) = .error .innerDimMismatch := by
  constructor
  · exact mul_op_spec.2.2.2.1 [[(1:ℚ),2],[3,4]] [[5,6],[7,8]] (by decide)
  · exact mul_op_spec.2.2.1 [[(1:ℚ),2,3]] [[1,2],[3,4]] (by decide)

/-- Claim C5: Add and Subtract require both operands present and fail with
`ShapeMismatch` whenever the shapes differ (for example 2×3 against 3×2);
on matching shapes they return the elementwise sum / difference with the
operands' shape. -/
theorem add_sub_op_spec :
    (∀ b, add_op none b = .error (.missingOperand "A and B"))
    ∧ (∀ a, add_op a none = .error (.missingOperand "A and B"))
    ∧ (∀ b, sub_op none b = .error (.missingOperand "A and B"))
    ∧ (∀ a, sub_op a none = .error (.missingOperand "A and B"))
    ∧ (∀ a b : Grid, shape a ≠ shape b →
        add_op (some a) (some b) = .error .shapeMismatch
        ∧ sub_op (some a) (some b) = .error .shapeMismatch)
    ∧ (∀ a b : Grid, shape a = shape b →
        add_op (some a) (some b) = .ok (addG a b)
        ∧ sub_op (some a) (some b) = .ok (subG a b))
    ∧ (∀ a b : Grid, shape a = shape b →
        shape (addG a b) = shape a ∧ shape (subG a b) = shape a)
    ∧ (∀ a b : Grid, Rect a → Rect b → shape a = shape b → ∀ i j : ℕ,
        i < nrows a → j < ncols a →
        ((addG a b).getD i []).getD j 0
            = (a.getD i []).getD j 0 + (b.getD i []).getD j 0
        ∧ ((subG a b).getD i []).getD j 0
            = (a.getD i []).getD j 0 - (b.getD i []).getD j 0)
    ∧ add_op (some [[1,2,3],[4,5,6]]) (some [[1,2],[3,4],[5,6]])
        = .error .shapeMismatch
    ∧ sub_op (some [[1,2,3],[4,5,6]]) (some [[1,2],[3,4],[5,6]])
        = .error .shapeMismatch := by
  refine ⟨fun b => rfl, fun a => ?_, fun b => rfl, fun a => ?_,
    fun a b h => ⟨?_, ?_⟩, fun a b h => ⟨?_, ?_⟩, fun a b h => ⟨?_, ?_⟩,
    fun a b ha hb h i j hi hj => ?_, ?_, ?_⟩
  · cases a <;> rfl
  · cases a <;> rfl
  · simp only [add_op]; rw [if_pos h]
  · simp only [sub_op]; rw [if_pos h]
  · simp only [add_op]; rw [if_neg (not_not_intro h)]
  · simp only [sub_op]; rw [if_neg (not_not_intro h)]
  · have h1 : nrows a = nrows b := congrArg Prod.fst h
    have h2 : ncols a = ncols b := congrArg Prod.snd h
    show (nrows (addG a b), ncols (addG a b)) = (nrows a, ncols a)
    rw [Prod.mk.injEq]
    exact ⟨zipGrid_length _ a b h1, zipGrid_ncols _ a b h1 h2⟩
  · have h1 : nrows a = nrows b := congrArg Prod.fst h
    have h2 : ncols a = ncols b := congrArg Prod.snd h
    show (nrows (subG a b), ncols (subG a b)) = (nrows a, ncols a)
    rw [Prod.mk.injEq]
    exact ⟨zipGrid_length _ a b h1, zipGrid_ncols _ a b h1 h2⟩
  · have h1 : nrows a = nrows b := congrArg Prod.fst h
    have h2 : ncols a = ncols b := congrArg Prod.snd h
    exact ⟨zipGrid_entry _ a b ha hb h1 h2 hi hj,
      zipGrid_entry _ a b ha hb h1 h2 hi hj⟩
  · with_unfolding_all rfl
  · with_unfolding_all rfl

/-- Witness for C5 at concrete inputs: a 2×3 against 3×2 mismatch and a
matching-shape sum, hypotheses discharged by computation. -/
theorem add_sub_op_spec_witness :
    add_op (some [[(1:ℚ),2,3],[4,5,6]]) (some [[1,2],[3,4],[5,6]])
      = .error .shapeMismatch
    ∧ add_op (some [[(1:ℚ),2,3],[4,5,6]]) (some [[10,10,10],[10,10,10]])
      = .ok (addG [[(1:ℚ),2,3],[4,5,6]] [[10,10,10],[10,10,10]]) := by
  constructor
  · exact (add_sub_op_spec.2.2.2.2.1 [[(1:ℚ),2,3],[4,5,6]] [[1,2],[3,4],[5,6]]
      (by decide)).1
  · exact (add_sub_op_spec.2.2.2.2.2.1 [[(1:ℚ),2,3],[4,5,6]] [[10,10,10],[10,10,10]]
      (by decide)).1

/-- Claim C6: Determinant of the selected operand fails with
`MissingOperand` when absent and `NotSquare` when the row and column counts
differ (for example a 2×3 grid); on a present square operand it returns the
exact determinant (the list determinant agrees with the Mathlib matrix
determinant), and the determinant of `[[1,2],[3,4]]` is `-2`. -/
theorem determinant_op_spec :
    (∀ b, determinant_op "A" none b = .error (.missingOperand "A"))
    ∧ (∀ a, determinant_op "B" a none = .error (.missingOperand "B"))
    ∧ (∀ (choice : String) (a b : Option Grid) (m : Grid),
        (if choice = "A" then a else b) = some m → nrows m ≠ ncols m →
        determinant_op choice a b = .error .notSquare)
    ∧ (∀ (choice : String) (a b : Option Grid) (m : Grid),
        (if choice = "A" then a else b) = some m → nrows m = ncols m →
        determinant_op choice a b = .ok (detL m))
    ∧ (∀ (m : Grid) (n : ℕ), m.length = n → (∀ r ∈ m, r.length = n) →
        detL m = Matrix.det (Matrix.of
          (fun i j : Fin n => (m.getD (i : ℕ) []).getD (j : ℕ) 0)))
    ∧ determinant_op "A" (some [[1,2,3],[4,5,6]]) none = .error .notSquare
    ∧ detL [[1,2],[3,4]] = -2
    ∧ determinant_op "A" (some [[1,2],[3,4]]) none = .ok (-2) := by
  refine ⟨fun b => rfl, fun a => rfl, fun choice a b m hm hsq => ?_,
    fun choice a b m hm hsq => ?_, fun m n h1 h2 => detL_eq_det n m h1 h2,
    ?_, ?_, ?_⟩
  · simp only [determinant_op, hm]
    rw [if_pos hsq]
  · simp only [determinant_op, hm]
    rw [if_neg (not_not_intro hsq)]
  · with_unfolding_all rfl
  · with_unfolding_all rfl
  · with_unfolding_all rfl

/-- Witness for C6 at concrete inputs: the selector, squareness and
rectangularity hypotheses are discharged by computation. -/
theorem determinant_op_spec_witness :
    determinant_op "A" (some [[(1:ℚ),2],[3,4]]) none = .ok (detL [[(1:ℚ),2],[3,4]])
    ∧ determinant_op "B" (some [[(1:ℚ)]]) (some [[1,2,3],[4,5,6]])
        = .error .notSquare
    ∧ detL [[(1:ℚ),2],[3,4]] = Matrix.det (Matrix.of
        (fun i j : Fin 2 => (([[(1:ℚ),2],[3,4]]).getD (i : ℕ) []).getD (j : ℕ) 0)) := by
  refine ⟨?_, ?_, ?_⟩
  · exact determinant_op_spec.2.2.2.1 "A" (some [[(1:ℚ),2],[3,4]]) none
      [[(1:ℚ),2],[3,4]] rfl (by decide)
  · exact determinant_op_spec.2.2.1 "B" (some [[(1:ℚ)]]) (some [[1,2,3],[4,5,6]])
      [[(1:ℚ),2,3],[4,5,6]] rfl (by decide)
  · exact determinant_op_spec.2.2.2.2.1 [[(1:ℚ),2],[3,4]] 2 (by decide) (by decide)

/-- Claim C7: Transpose of the selected operand fails with `MissingOperand`
when absent, and otherwise returns a grid of shape `cols × rows` with
`result[j][i] = input[i][j]`; for square grids the transpose is an
involution. -/
theorem transpose_op_spec :
    (∀ b : Option Grid, transpose_op "A" none b = .error (.missingOperand "A"))
    ∧ (∀ a : Option Grid, transpose_op "B" a none = .error (.missingOperand "B"))
    ∧ (∀ (choice : String) (a b : Option Grid) (m : Grid),
        (if choice = "A" then a else b) = some m →
        transpose_op choice a b = .ok (transposeG m))
    ∧ (∀ m : Grid, (transposeG m).length = ncols m)
    ∧ (∀ m : Grid, ∀ r ∈ transposeG m, r.length = nrows m)
    ∧ (∀ (m : Grid) (i j : ℕ), i < nrows m → j < ncols m →
        ((transposeG m).getD j []).getD i 0 = (m.getD i []).getD j 0)
    ∧ (∀ m : Grid, Rect m → nrows m = ncols m → transposeG (transposeG m) = m) := by
  refine ⟨fun b => rfl, fun a => rfl, fun choice a b m hm => ?_,
    length_transposeG, mem_transposeG_length,
    fun m i j hi hj => transposeG_entry m hi hj, transposeG_transposeG⟩
  simp only [transpose_op, hm]

/-- Witness for C7 at concrete inputs: the selector and squareness
hypotheses are discharged by computation. -/
theorem transpose_op_spec_witness :
    transpose_op "A" (some [[(1:ℚ),2],[3,4]]) none
      = .ok (transposeG [[(1:ℚ),2],[3,4]])
    ∧ transposeG (transposeG [[(1:ℚ),2],[3,4]]) = [[1,2],[3,4]] := by
  constructor
  · exact transpose_op_spec.2.2.1 "A" (some [[(1:ℚ),2],[3,4]]) none
      [[(1:ℚ),2],[3,4]] rfl
  · exact transpose_op_spec.2.2.2.2.2.2 [[(1:ℚ),2],[3,4]] (by decide) (by decide)

/-! ### Structure of the parser -/

theorem nodup_all_eq_length_le (l : List ℕ) (x : ℕ) (hn : l.Nodup)
    (h : ∀ a ∈ l, a = x) : l.length ≤ 1 := by
  match l with
  | [] => simp
  | [a] => simp
  | a :: b :: t =>
    exfalso
    have ha : a = x := h a (by simp)
    have hb : b = x := h b (by simp)
    rw [List.nodup_cons] at hn
    exact hn.1 (by rw [ha, hb]; simp)

theorem dedup_length_one {l : List ℕ} (hl : l ≠ []) :
    l.dedup.length = 1 ↔ ∀ a ∈ l, a = l.headD 0 := by
  constructor
  · intro h a ha
    obtain ⟨x, hx⟩ := List.length_eq_one.mp h
    have hax : a = x := by
      have : a ∈ l.dedup := List.mem_dedup.mpr ha
      rw [hx] at this
      simpa using this
    have hhx : l.headD 0 = x := by
      have hh : l.headD 0 ∈ l := by
        cases l with
        | nil => exact absurd rfl hl
        | cons b t => simp
      have : l.headD 0 ∈ l.dedup := List.mem_dedup.mpr hh
      rw [hx] at this
      simpa using this
    rw [hax, hhx]
  · intro h
    have hle : l.dedup.length ≤ 1 := by
      refine nodup_all_eq_length_le l.dedup (l.headD 0) (List.nodup_dedup l)
        fun a ha => ?_
      exact h a (List.mem_dedup.mp ha)
    have hmem : l.headD 0 ∈ l := by
      cases l with
      | nil => exact absurd rfl hl
      | cons b t => simp
    have hpos : 0 < l.dedup.length :=
      List.length_pos.mpr (List.ne_nil_of_mem (List.mem_dedup.mpr hmem))
    omega

theorem all_lengths_iff (rows : List (List ℚ)) (h : rows ≠ []) :
    ((rows.map List.length).dedup.length = 1) ↔ ∀ r ∈ rows, r.length = ncols rows := by
  cases rows with
  | nil => exact absurd rfl h
  | cons r0 rs =>
    rw [dedup_length_one (by simp)]
    constructor
    · intro H r hr
      have := H r.length (List.mem_map_of_mem List.length hr)
      simpa [ncols] using this
    · intro H a ha
      obtain ⟨r, hr, rfl⟩ := List.mem_map.mp ha
      simpa [ncols] using H r hr

theorem parseRows_length : ∀ {ls : List (List Char)} {rows : List (List ℚ)},
    parseRows ls = .ok rows → rows.length = ls.length := by
  intro ls
  induction ls with
  | nil =>
    intro rows h
    simp only [parseRows] at h
    injection h with h
    rw [← h]
    rfl
  | cons ln rest ih =>
    intro rows h
    simp only [parseRows] at h
    split at h
    · exact absurd h (by simp)
    · split at h
      · exact absurd h (by simp)
      · next rs hrs =>
        injection h with h
        rw [← h]
        simpa using ih hrs

theorem parseRows_error_shape : ∀ {ls : List (List Char)} {e : Err},
    parseRows ls = .error e → ∃ ln, e = .nonNumericToken ln := by
  intro ls
  induction ls with
  | nil =>
    intro e h
    exact absurd h (by simp [parseRows])
  | cons ln rest ih =>
    intro e h
    simp only [parseRows] at h
    split at h
    · injection h with h
      exact ⟨⟨ln⟩, h.symm⟩
    · split at h
      · next e' he' =>
        injection h with h
        subst h
        exact ih he'
      · exact absurd h (by simp)

theorem parseRows_first_fail : ∀ (pre : List (List Char)) (ln : List Char)
    (post : List (List Char)), (∀ l ∈ pre, parseLine l ≠ none) → parseLine ln = none →
    parseRows (pre ++ ln :: post) = .error (.nonNumericToken ⟨ln⟩) := by
  intro pre
  induction pre with
  | nil =>
    intro ln post _ hln
    simp only [List.nil_append, parseRows, hln]
  | cons l0 rest ih =>
    intro ln post hpre hln
    have h0 : parseLine l0 ≠ none := hpre l0 (by simp)
    obtain ⟨r0, hr0⟩ := Option.ne_none_iff_exists'.mp h0
    have hrest : ∀ l ∈ rest, parseLine l ≠ none := fun l hl => hpre l (by simp [hl])
    have key := ih ln post hrest hln
    have hsplit : (l0 :: rest) ++ ln :: post = l0 :: (rest ++ ln :: post) := rfl
    rw [hsplit]
    simp only [parseRows, hr0, key]

theorem parseRows_ok_forall₂ : ∀ (ls : List (List Char)) (rows : List (List ℚ)),
    parseRows ls = .ok rows ↔ List.Forall₂ (fun l r => parseLine l = some r) ls rows := by
  intro ls
  induction ls with
  | nil =>
    intro rows
    constructor
    · intro h
      simp only [parseRows] at h
      injection h with h
      rw [← h]
      exact List.Forall₂.nil
    · intro h
      cases h
      rfl
  | cons ln rest ih =>
    intro rows
    constructor
    · intro h
      simp only [parseRows] at h
      split at h
      · exact absurd h (by simp)
      · next r hr =>
        split at h
        · exact absurd h (by simp)
        · next rs hrs =>
          injection h with h
          rw [← h]
          exact List.Forall₂.cons hr ((ih rs).mp hrs)
    · intro h
      cases h with
      | cons hr htail =>
        next r rs =>
          simp only [parseRows, hr, (ih rs).mpr htail]

theorem parse_matrix_ok_shape {text : String} {g : Grid}
    (h : parse_matrix text = .ok g) : g ≠ [] ∧ Rect g := by
  simp only [parse_matrix] at h
  split at h
  · exact absurd h (by simp)
  · next hl =>
    split at h
    · exact absurd h (by simp)
    · next rows hrows =>
      split at h
      · next hd =>
        injection h with h
        subst h
        have hne : rows ≠ [] := by
          have hll := parseRows_length hrows
          intro hg
          rw [hg] at hll
          exact hl (List.length_eq_zero.mp hll.symm)
        exact ⟨hne, (all_lengths_iff rows hne).mp hd⟩
      · exact absurd h (by simp)

theorem parse_matrix_empty_iff (text : String) :
    parse_matrix text = .error .emptyInput ↔ nonBlankLinesL text.data = [] := by
  constructor
  · intro h
    by_contra hl
    simp only [parse_matrix] at h
    rw [if_neg hl] at h
    split at h
    · next e he =>
      obtain ⟨ln, rfl⟩ := parseRows_error_shape he
      exact absurd h (by simp)
    · split at h
      · exact absurd h (by simp)
      · exact absurd h (by simp)
  · intro hl
    simp only [parse_matrix]
    rw [if_pos hl]

/-! ### Claim theorems for the parser -/

/-- Claim C2 counterexample: the input consisting of a single comma parses
successfully to a grid with one row and zero columns, so a successful parse
does not guarantee at least one column. -/
theorem parse_matrix_zero_cols_cex :
    parse_matrix "," = .ok [[]] ∧ ncols [[]] = 0 :=
  ⟨by with_unfolding_all rfl, rfl⟩

/-- Claim C2 (amended): every successful parse returns a grid with at least
one row and all rows of equal length; the common row length may however be
zero (a non-blank line whose tokens are all empty, such as a lone comma,
yields an empty row), so "at least one column" does not hold.  Grids are
never padded or truncated: rows are exactly the parsed token lists (see the
C1 characterization). -/
theorem parse_matrix_rect (text : String) (g : Grid)
    (h : parse_matrix text = .ok g) : g ≠ [] ∧ Rect g :=
  parse_matrix_ok_shape h

/-- Witness for C2 (amended) at a concrete input. -/
theorem parse_matrix_rect_witness :
    ([[(1:ℚ),2],[3,4]] : Grid) ≠ [] ∧ Rect [[(1:ℚ),2],[3,4]] :=
  parse_matrix_rect "1 2\n3 4" [[1,2],[3,4]] (by with_unfolding_all rfl)

/-- Claim C1 counterexample: the `NonNumericToken` error carries the
stripped line, not the line's original text: on input `" 1 x"` the offending
original line is `" 1 x"` but the error identifies `"1 x"`. -/
theorem parse_matrix_nonnumeric_stripped_cex :
    parse_matrix " 1 x" = .error (.nonNumericToken "1 x")
    ∧ ("1 x" : String) ≠ " 1 x" :=
  ⟨by with_unfolding_all rfl, by decide⟩

/-- Claim C1 (amended): parsing fails with `EmptyInput` exactly when no
non-blank lines remain; it fails with `NonNumericToken` when some line's
tokens do not all parse as real numbers, the error identifying the first
such line's stripped text; otherwise, with every line parsed, it fails with
`RaggedRows` when the rows do not all have the same token count and
otherwise succeeds with exactly the parsed token lists of the non-blank
lines, in order (commas count as whitespace inside `parseLine`). -/
theorem parse_matrix_characterization (text : String) :
    (parse_matrix text = .error .emptyInput ↔ nonBlankLinesL text.data = [])
    ∧ (∀ (pre : List (List Char)) (ln : List Char) (post : List (List Char)),
        nonBlankLinesL text.data = pre ++ ln :: post →
        (∀ l ∈ pre, parseLine l ≠ none) → parseLine ln = none →
        parse_matrix text = .error (.nonNumericToken ⟨ln⟩))
    ∧ (∀ rows : List (List ℚ),
        List.Forall₂ (fun l r => parseLine l = some r) (nonBlankLinesL text.data) rows →
        nonBlankLinesL text.data ≠ [] →
        ((¬ ∀ r ∈ rows, r.length = ncols rows) →
          parse_matrix text = .error .raggedRows)
        ∧ ((∀ r ∈ rows, r.length = ncols rows) → parse_matrix text = .ok rows)) := by
  refine ⟨parse_matrix_empty_iff text, ?_, ?_⟩
  · intro pre ln post hsplit hpre hln
    have hne : nonBlankLinesL text.data ≠ [] := by
      rw [hsplit]; simp
    simp only [parse_matrix]
    rw [if_neg hne, hsplit, parseRows_first_fail pre ln post hpre hln]
  · intro rows hf hne
    have hrows : parseRows (nonBlankLinesL text.data) = .ok rows :=
      (parseRows_ok_forall₂ _ _).mpr hf
    have hrne : rows ≠ [] := by
      intro hg
      rw [hg] at hf
      exact hne (List.forall₂_nil_right_iff.mp hf)
    constructor
    · intro hra
      simp only [parse_matrix]
      rw [if_neg hne, hrows]
      have : ¬ ((rows.map List.length).dedup.length = 1) := by
        rw [all_lengths_iff rows hrne]; exact hra
      simp only [if_neg this]
    · intro hra
      simp only [parse_matrix]
      rw [if_neg hne, hrows]
      have : (rows.map List.length).dedup.length = 1 :=
        (all_lengths_iff rows hrne).mpr hra
      simp only [if_pos this]

/-- Witness for C1 (amended) at a concrete input: the second line fails to
parse, the first parses, and the error carries the second line's text. -/
theorem parse_matrix_characterization_witness :
    parse_matrix "1 2\n3 x" = .error (.nonNumericToken "3 x") := by
  exact (parse_matrix_characterization "1 2\n3 x").2.1 ["1 2".data] "3 x".data []
    (by with_unfolding_all rfl)
    (by with_unfolding_all decide)
    (by with_unfolding_all rfl)

/-! ### The formatter -/

theorem pyRound_eq_of_close (x : ℚ) (n : ℤ) (h : |x - (n : ℚ)| < 1 / 10 ^ 9) :
    pyRound x = n := by
  have h' := abs_lt.mp h
  have h19 : (1 / 10 ^ 9 : ℚ) < 1 / 2 := by norm_num
  rcases le_or_lt (n : ℚ) x with hle | hlt
  · have hfl : ⌊x⌋ = n := by
      rw [Int.floor_eq_iff]
      refine ⟨hle, ?_⟩
      have : (1 / 10 ^ 9 : ℚ) < 1 := by norm_num
      linarith [h'.2]
    unfold pyRound
    rw [hfl, if_pos (show x - (n : ℚ) < 1 / 2 by linarith [h'.2])]
  · have hcast : ((n - 1 : ℤ) : ℚ) = (n : ℚ) - 1 := by push_cast; ring
    have hfl : ⌊x⌋ = n - 1 := by
      rw [Int.floor_eq_iff, hcast]
      constructor
      · linarith [h'.1]
      · linarith
    unfold pyRound
    rw [hfl, hcast]
    have hfrac : 1 / 2 < x - ((n : ℚ) - 1) := by linarith [h'.1]
    rw [if_neg (by linarith), if_pos hfrac]
    omega

theorem digitCh_isDigit (d : ℕ) : (digitCh d).isDigit = true := by
  unfold digitCh
  split <;> rfl

theorem natDigitsAux_digits (fuel : ℕ) : ∀ n, ∀ c ∈ natDigitsAux fuel n,
    c.isDigit = true := by
  induction fuel with
  | zero => intro n c hc; simp [natDigitsAux] at hc
  | succ f ih =>
    intro n c hc
    simp only [natDigitsAux] at hc
    split at hc
    · rw [List.mem_singleton] at hc
      rw [hc]; exact digitCh_isDigit n
    · rw [List.mem_append] at hc
      rcases hc with hc | hc
      · exact ih _ c hc
      · rw [List.mem_singleton] at hc
        rw [hc]; exact digitCh_isDigit _

theorem natToDigits_digits (n : ℕ) : ∀ c ∈ natToDigits n, c.isDigit = true :=
  natDigitsAux_digits (n + 1) n

theorem intStr_no_dot (n : ℤ) : '.' ∉ (intStr n).data := by
  intro hmem
  have hmem' : '.' ∈ (if n < 0 then ['-'] else []) ++ natToDigits n.natAbs := hmem
  rw [List.mem_append] at hmem'
  rcases hmem' with hm | hm
  · split at hm
    · rw [List.mem_singleton] at hm
      exact absurd hm (by decide)
    · simp at hm
  · have := natToDigits_digits n.natAbs '.' hm
    exact absurd this (by decide)

/-- Claim C8: whenever a value is within `1e-9` of an integer, the formatter
renders exactly that integer's decimal string (no decimal point, hence no
trailing `.0`); all other values go through the `%.6g` renderer; in
particular `2.0000000001` renders as `"2"` and `1/3` as `"0.333333"`. -/
theorem fmt_spec :
    (∀ (x : ℚ) (n : ℤ), |x - (n : ℚ)| < 1 / 10 ^ 9 →
      fmtNum x = intStr n ∧ '.' ∉ (intStr n).data)
    ∧ (∀ x : ℚ, ¬ |x - (pyRound x : ℚ)| < 1 / 10 ^ 9 → fmtNum x = pyFmtG6 x)
    ∧ fmtNum (2 + 1 / 10 ^ 10) = "2"
    ∧ fmtNum (1 / 3) = "0.333333" := by
  refine ⟨fun x n h => ⟨?_, intStr_no_dot n⟩, fun x h => ?_, ?_, ?_⟩
  · have hr : pyRound x = n := pyRound_eq_of_close x n h
    unfold fmtNum
    rw [hr, if_pos h]
  · unfold fmtNum
    rw [if_neg h]
  · with_unfolding_all rfl
  · with_unfolding_all rfl

/-- Witness for C8: `7 + 1e-10` is within `1e-9` of `7` and renders as the
plain integer string. -/
theorem fmt_spec_witness :
    fmtNum (7 + 1 / 10 ^ 10) = intStr 7 ∧ '.' ∉ (intStr 7).data :=
  fmt_spec.1 (7 + 1 / 10 ^ 10) 7 (by with_unfolding_all decide)

/-! ### The clipboard copy -/

theorem natDigitsAux_ne_nil (fuel n : ℕ) (h : fuel ≠ 0) :
    natDigitsAux fuel n ≠ [] := by
  cases fuel with
  | zero => exact absurd rfl h
  | succ f =>
    simp only [natDigitsAux]
    split
    · simp
    · simp

theorem natToDigits_ne_nil (n : ℕ) : natToDigits n ≠ [] :=
  natDigitsAux_ne_nil (n + 1) n (by omega)

theorem pyFloatStrL_intCast (n : ℤ) :
    pyFloatStrL (n : ℚ) = (intStr n).data ++ ['.', '0'] := by
  have hp : (((n : ℚ) * 10 ^ (0 : ℕ)).den = 1) := by
    rw [pow_zero, mul_one]
    exact Rat.den_intCast n
  have hfind : decExpQ (n : ℚ) = some 0 := by
    unfold decExpQ
    rw [show (1101 : ℕ) = 1100 + 1 from rfl, List.range_succ_eq_map, List.find?_cons]
    simp [hp]
  unfold pyFloatStrL
  rw [hfind]
  have hnum : ((n : ℚ) * 10 ^ (0 : ℕ)).num = n := by
    rw [pow_zero, mul_one]
    exact Rat.num_intCast n
  show renderDecL ((n : ℚ) * 10 ^ (0 : ℕ)).num 0 = (intStr n).data ++ ['.', '0']
  rw [hnum]
  unfold renderDecL leftPad
  have hlen : 0 < (natToDigits n.natAbs).length :=
    List.length_pos.mpr (natToDigits_ne_nil n.natAbs)
  have hpad : List.replicate (0 + 1 - (natToDigits n.natAbs).length) '0' = [] := by
    have : 0 + 1 - (natToDigits n.natAbs).length = 0 := by omega
    rw [this]; rfl
  simp only [hpad, List.nil_append, Nat.sub_zero, List.take_length,
    List.drop_length]
  show (if n < 0 then ['-'] else []) ++ natToDigits n.natAbs ++ '.' :: ['0']
    = ((if n < 0 then ['-'] else []) ++ natToDigits n.natAbs) ++ ['.', '0']
  rw [List.append_assoc]

/-- Claim C9 counterexample: copying the grid result `[[2.0]]` places
`"2.0"` (Python `str` of the float) on the clipboard, while the section-4.3
formatter form of the same result is `"2"`, so the copied text is not the
formatter-rendered text form the claim prescribes. -/
theorem copy_result_formatter_cex :
    copy_result (some (.grid [[2]])) = some "2.0"
    ∧ specCopyText (.grid [[2]]) = "2"
    ∧ ("2.0" : String) ≠ "2" :=
  ⟨by with_unfolding_all rfl, by with_unfolding_all rfl, by decide⟩

/-- Claim C9 (amended): copying a grid result places its `matrix_to_text`
form on the clipboard — rows joined by line breaks, values within a row
joined by single spaces — but every value is rendered by Python float `str`
(exact shortest decimal, integral values keeping a trailing `.0`), not by
the section-4.3 display formatter; copying a scalar result likewise places
its `str` form, not its formatted string. -/
theorem copy_result_spec :
    (∀ g : Grid, copy_result (some (.grid g)) = some (matrix_to_text g))
    ∧ (∀ g : Grid, matrix_to_text g
        = ⟨joinSep '\n' (g.map (fun r => joinSep ' ' (r.map pyFloatStrL)))⟩)
    ∧ (∀ x : ℚ, copy_result (some (.scalar x)) = some ⟨pyFloatStrL x⟩)
    ∧ copy_result none = none
    ∧ (∀ n : ℤ, pyFloatStrL (n : ℚ) = (intStr n).data ++ ['.', '0']) :=
  ⟨fun _ => rfl, fun _ => rfl, fun _ => rfl, rfl, pyFloatStrL_intCast⟩

/-! ### Both text areas are parsed before any unary operation -/

theorem dropWhile_head_not {p : Char → Bool} : ∀ {l : List Char} {c : Char}
    {rest : List Char}, l.dropWhile p = c :: rest → p c = false := by
  intro l
  induction l with
  | nil => intro c rest h; simp at h
  | cons a t ih =>
    intro c rest h
    rw [List.dropWhile_cons] at h
    split at h
    · exact ih h
    · next hpa =>
      injection h with h1 _
      rw [← h1]
      simpa using hpa

theorem stripChars_head_not {l : List Char} {c : Char} {rest : List Char}
    (h : stripChars l = c :: rest) : isPySpace c = false := by
  unfold stripChars at h
  set m := l.dropWhile isPySpace with hm
  have h2 : m.reverse.takeWhile isPySpace ++ m.reverse.dropWhile isPySpace
      = m.reverse := List.takeWhile_append_dropWhile _ _
  have h3 : m = (m.reverse.dropWhile isPySpace).reverse
      ++ (m.reverse.takeWhile isPySpace).reverse := by
    rw [← List.reverse_append, h2, List.reverse_reverse]
  rw [h] at h3
  have h4 : l.dropWhile isPySpace
      = c :: (rest ++ (m.reverse.takeWhile isPySpace).reverse) := by
    rw [← hm]
    simpa using h3
  exact dropWhile_head_not h4

theorem splitlinesAux_acc_head : ∀ (l acc : List Char), acc ≠ [] →
    ∃ t ls', splitlinesAux l acc = (acc.reverse ++ t) :: ls' := by
  intro l
  induction l with
  | nil =>
    intro acc hacc
    refine ⟨[], [], ?_⟩
    simp [splitlinesAux, hacc]
  | cons c rest ih =>
    intro acc hacc
    by_cases hc1 : c = '\r'
    · subst hc1
      rcases rest with _ | ⟨c2, rest2⟩
      · refine ⟨[], [], ?_⟩
        simp [splitlinesAux]
      · by_cases hc2 : c2 = '\n'
        · subst hc2
          refine ⟨[], splitlinesAux rest2 [], ?_⟩
          simp [splitlinesAux]
        · refine ⟨[], splitlinesAux (c2 :: rest2) [], ?_⟩
          simp [splitlinesAux, hc2]
    · by_cases hc3 : c = '\n'
      · subst hc3
        refine ⟨[], splitlinesAux rest [], ?_⟩
        simp [splitlinesAux, hc1]
      · have heq : splitlinesAux (c :: rest) acc = splitlinesAux rest (c :: acc) := by
          simp [splitlinesAux, hc1, hc3]
        obtain ⟨t, ls', ht⟩ := ih (c :: acc) (by simp)
        refine ⟨c :: t, ls', ?_⟩
        rw [heq, ht]
        simp

theorem nonBlankLines_ne_of_strip_ne {s : String} (h : pyStrip s ≠ "") :
    nonBlankLinesL s.data ≠ [] := by
  have hne : stripChars s.data ≠ [] := by
    intro hc
    apply h
    show (⟨stripChars s.data⟩ : String) = ""
    rw [hc]
  obtain ⟨c, rest, hcr⟩ : ∃ c rest, stripChars s.data = c :: rest := by
    rcases hl : stripChars s.data with _ | ⟨c, rest⟩
    · exact absurd hl hne
    · exact ⟨c, rest, rfl⟩
  have hcns : isPySpace c = false := stripChars_head_not hcr
  have hcr' : c ≠ '\r' := by
    intro h'
    rw [h'] at hcns
    exact absurd hcns (by decide)
  have hcn' : c ≠ '\n' := by
    intro h'
    rw [h'] at hcns
    exact absurd hcns (by decide)
  have hsl : splitlinesC (stripChars s.data) = splitlinesAux rest [c] := by
    rw [hcr]
    simp [splitlinesC, splitlinesAux, hcr', hcn']
  obtain ⟨t, ls', ht⟩ := splitlinesAux_acc_head rest [c] (by simp)
  unfold nonBlankLinesL
  rw [hsl, ht]
  have hstrip_ne : stripChars ([c].reverse ++ t) ≠ [] := by
    have hrev : [c].reverse ++ t = c :: t := rfl
    rw [hrev]
    unfold stripChars
    intro hh
    have h1 : List.dropWhile isPySpace (c :: t) = c :: t := by
      rw [List.dropWhile_cons]
      simp [hcns]
    rw [h1] at hh
    have h2 : (c :: t).reverse.dropWhile isPySpace = [] := by
      simpa using hh
    rw [List.dropWhile_eq_nil_iff] at h2
    have h3 := h2 c (by simp)
    rw [hcns] at h3
    exact absurd h3 (by decide)
  rw [List.map_cons, List.filter_cons]
  rw [if_pos (by simpa using hstrip_ne)]
  simp

theorem parse_ok_strip_ne {s : String} {g : Grid}
    (h : parse_matrix s = .ok g) : pyStrip s ≠ "" := by
  intro hstrip
  have hl : stripChars s.data = [] := by
    have hd := congrArg String.data hstrip
    exact hd
  have hnb : nonBlankLinesL s.data = [] := by
    unfold nonBlankLinesL
    rw [hl]
    rfl
  have herr : parse_matrix s = .error .emptyInput := by
    simp only [parse_matrix]
    rw [if_pos hnb]
  rw [h] at herr
  exact absurd herr (by simp)

/-- Claim C10: every operation parses both text areas before selecting its
operand; with the selector on A, a non-blank but unparseable B makes
Transpose and Determinant fail with B's parse error (which is never
`EmptyInput`, since B's text is non-blank), even though B is not the
selected operand; a blank text area instead yields an absent operand, so
Transpose and Determinant on blank inputs fail with `MissingOperand`
rather than a parse error. -/
theorem unary_ops_parse_both :
    (∀ (aStr bStr : String) (g : Grid) (e : Err),
      parse_matrix aStr = .ok g → pyStrip bStr ≠ "" → parse_matrix bStr = .error e →
      transposeApp "A" aStr bStr = .error e
      ∧ determinantApp "A" aStr bStr = .error e
      ∧ e ≠ .emptyInput)
    ∧ (∀ (aStr : String) (g : Grid), parse_matrix aStr = .ok g →
        transposeApp "A" aStr "" = .ok (transposeG g))
    ∧ transposeApp "A" "" "" = .error (.missingOperand "A")
    ∧ determinantApp "A" "" "" = .error (.missingOperand "A") := by
  refine ⟨fun aStr bStr g e ha hb he => ?_, fun aStr g ha => ?_, ?_, ?_⟩
  · have ha' : pyStrip aStr ≠ "" := parse_ok_strip_ne ha
    have key : get_matrices aStr bStr = .error e := by
      simp only [get_matrices, if_neg ha', if_neg hb, ha, he, Except.map]
    refine ⟨?_, ?_, ?_⟩
    · simp only [transposeApp, key]
    · simp only [determinantApp, key]
    · intro hemp
      rw [hemp] at he
      exact nonBlankLines_ne_of_strip_ne hb ((parse_matrix_empty_iff bStr).mp he)
  · have ha' : pyStrip aStr ≠ "" := parse_ok_strip_ne ha
    have key : get_matrices aStr "" = .ok (some g, none) := by
      simp only [get_matrices, if_neg ha', ha, Except.map,
        if_pos (show pyStrip "" = "" from rfl)]
    simp only [transposeApp, key, transpose_op]
    rfl
  · with_unfolding_all rfl
  · with_unfolding_all rfl

/-- Witness for C10: with the selector on A, valid A text `"1 2"` and
non-blank unparseable B text `"3 x"`, both unary operations surface B's
parse error. -/
theorem unary_ops_parse_both_witness :
    transposeApp "A" "1 2" "3 x" = .error (.nonNumericToken "3 x")
    ∧ determinantApp "A" "1 2" "3 x" = .error (.nonNumericToken "3 x") := by
  have h := unary_ops_parse_both.1 "1 2" "3 x" [[1, 2]] (.nonNumericToken "3 x")
    (by with_unfolding_all rfl) (by decide) (by with_unfolding_all rfl)
  exact ⟨h.1, h.2.1⟩

/-! ### Character classes of rendered numbers -/

/-- The characters that can occur in a rendered number. -/
def numChar (c : Char) : Prop := c.isDigit = true ∨ c = '-' ∨ c = '.'

theorem isDigit_not_space {c : Char} (h : c.isDigit = true) :
    isPySpace c = false := by
  by_contra hsp
  rw [Bool.not_eq_false] at hsp
  rw [isPySpace, decide_eq_true_eq] at hsp
  rcases hsp with rfl | rfl | rfl | rfl | rfl | rfl <;> exact absurd h (by decide)

theorem numChar_not_space {c : Char} (h : numChar c) : isPySpace c = false := by
  rcases h with h | rfl | rfl
  · exact isDigit_not_space h
  · rfl
  · rfl

theorem numChar_ne {c : Char} (h : numChar c) :
    c ≠ ',' ∧ c ≠ '\n' ∧ c ≠ '\r' := by
  rcases h with h | rfl | rfl
  · refine ⟨?_, ?_, ?_⟩ <;> intro h' <;> rw [h'] at h <;> exact absurd h (by decide)
  · exact ⟨by decide, by decide, by decide⟩
  · exact ⟨by decide, by decide, by decide⟩

theorem leftPad_chars {l : List Char} (hl : ∀ a ∈ l, a.isDigit = true)
    {c : Char} (hc : c.isDigit = true) (k : ℕ) :
    ∀ a ∈ leftPad c k l, a.isDigit = true := by
  intro a ha
  unfold leftPad at ha
  rw [List.mem_append] at ha
  rcases ha with ha | ha
  · rw [List.mem_replicate] at ha
    rw [ha.2]
    exact hc
  · exact hl a ha

theorem renderDecL_chars (n : ℤ) (k : ℕ) : ∀ c ∈ renderDecL n k, numChar c := by
  intro c hc
  have hds : ∀ a ∈ leftPad '0' (k + 1) (natToDigits n.natAbs), a.isDigit = true :=
    leftPad_chars (natToDigits_digits _) (by decide) (k + 1)
  simp only [renderDecL, List.mem_append, List.mem_cons] at hc
  rcases hc with (hc | hc) | hc | hc
  · split at hc
    · rw [List.mem_singleton] at hc
      rw [hc]
      right; left; rfl
    · simp at hc
  · exact Or.inl (hds c (List.take_subset _ _ hc))
  · rw [hc]
    right; right; rfl
  · split at hc
    · rw [List.mem_singleton] at hc
      rw [hc]
      left; decide
    · exact Or.inl (hds c (List.drop_subset _ _ hc))

theorem renderDecL_ne_nil (n : ℤ) (k : ℕ) : renderDecL n k ≠ [] := by
  simp [renderDecL]

theorem pyFloatStrL_chars (q : ℚ) : ∀ c ∈ pyFloatStrL q, numChar c := by
  unfold pyFloatStrL
  cases decExpQ q with
  | none =>
    intro c hc
    rw [List.mem_singleton] at hc
    rw [hc]
    left; decide
  | some k => exact renderDecL_chars _ k

theorem pyFloatStrL_ne_nil (q : ℚ) : pyFloatStrL q ≠ [] := by
  unfold pyFloatStrL
  cases decExpQ q with
  | none => simp
  | some k => exact renderDecL_ne_nil _ k

/-! ### Digit-string arithmetic -/

theorem digitsVal_foldl_init (ds : List Char) : ∀ init : ℕ,
    ds.foldl (fun a c => 10 * a + (c.toNat - 48)) init
      = init * 10 ^ ds.length + digitsVal ds := by
  induction ds with
  | nil => intro init; simp [digitsVal]
  | cons c t ih =>
    intro init
    show t.foldl _ (10 * init + (c.toNat - 48)) = _
    rw [ih (10 * init + (c.toNat - 48))]
    have hdv : digitsVal (c :: t) = (c.toNat - 48) * 10 ^ t.length + digitsVal t := by
      show t.foldl _ (10 * 0 + (c.toNat - 48)) = _
      rw [ih (10 * 0 + (c.toNat - 48))]
      ring_nf
    rw [hdv, List.length_cons]
    ring

theorem digitsVal_append (a b : List Char) :
    digitsVal (a ++ b) = digitsVal a * 10 ^ b.length + digitsVal b := by
  unfold digitsVal
  rw [List.foldl_append]
  exact digitsVal_foldl_init b _

theorem digitsVal_replicate_zero (m : ℕ) :
    digitsVal (List.replicate m '0') = 0 := by
  induction m with
  | zero => rfl
  | succ j ih =>
    rw [List.replicate_succ,
      show ('0' :: List.replicate j '0') = ['0'] ++ List.replicate j '0' from rfl,
      digitsVal_append, ih]
    have h0 : digitsVal ['0'] = 0 := rfl
    rw [h0]
    simp

theorem digitsVal_leftPad (k : ℕ) (l : List Char) :
    digitsVal (leftPad '0' k l) = digitsVal l := by
  unfold leftPad
  rw [digitsVal_append, digitsVal_replicate_zero]
  simp

theorem digitCh_val (d : ℕ) (h : d < 10) : (digitCh d).toNat - 48 = d := by
  interval_cases d <;> rfl

theorem digitsVal_natDigitsAux : ∀ (fuel n : ℕ), n < fuel →
    digitsVal (natDigitsAux fuel n) = n := by
  intro fuel
  induction fuel with
  | zero => intro n h; omega
  | succ f ih =>
    intro n h
    rw [natDigitsAux]
    split
    · next h10 =>
      show (10 : ℕ) * 0 + ((digitCh n).toNat - 48) = n
      rw [digitCh_val n h10]
      omega
    · next h10 =>
      rw [digitsVal_append]
      have hn0 : 0 < n := by omega
      have hdiv : n / 10 < f := by
        have h1 : n / 10 < n := Nat.div_lt_self hn0 (by omega)
        omega
      rw [ih (n / 10) hdiv]
      have hone : digitsVal [digitCh (n % 10)] = n % 10 := by
        show (10 : ℕ) * 0 + ((digitCh (n % 10)).toNat - 48) = n % 10
        rw [digitCh_val (n % 10) (Nat.mod_lt n (by omega))]
        omega
      rw [hone]
      have : ([digitCh (n % 10)] : List Char).length = 1 := rfl
      rw [this, pow_one]
      omega

theorem digitsVal_natToDigits (n : ℕ) : digitsVal (natToDigits n) = n :=
  digitsVal_natDigitsAux (n + 1) n (by omega)

/-! ### The digit-run scanner on concatenations -/

theorem spanDigits_exact : ∀ (ds rest : List Char), (∀ c ∈ ds, c.isDigit = true) →
    (∀ c, rest.head? = some c → c.isDigit = false) →
    spanDigits (ds ++ rest) = (ds, rest) := by
  intro ds
  induction ds with
  | nil =>
    intro rest _ hr
    cases rest with
    | nil => rfl
    | cons c t =>
      unfold spanDigits
      rw [List.nil_append, List.takeWhile_cons, List.dropWhile_cons]
      have hcf := hr c rfl
      simp [hcf]
  | cons c t ih =>
    intro rest h hr
    unfold spanDigits
    rw [List.cons_append, List.takeWhile_cons, List.dropWhile_cons]
    have hc := h c (by simp)
    have hih := ih rest (fun a ha => h a (by simp [ha])) hr
    have h1 : (t ++ rest).takeWhile Char.isDigit = t := congrArg Prod.fst hih
    have h2 : (t ++ rest).dropWhile Char.isDigit = rest := congrArg Prod.snd hih
    simp [hc, h1, h2]

/-! ### The rendered decimal parses back to the same value -/

theorem pyFloat?_renderDecL (n : ℤ) (k : ℕ) :
    pyFloat? (renderDecL n k) = some ((n : ℚ) / 10 ^ k) := by
  have hrender : renderDecL n k
      = (if n < 0 then ['-'] else [])
        ++ ((leftPad '0' (k + 1) (natToDigits n.natAbs)).take
              ((leftPad '0' (k + 1) (natToDigits n.natAbs)).length - k)
          ++ '.' :: (if k = 0 then ['0']
              else (leftPad '0' (k + 1) (natToDigits n.natAbs)).drop
                ((leftPad '0' (k + 1) (natToDigits n.natAbs)).length - k))) := by
    rw [renderDecL, List.append_assoc]
  set ds := leftPad '0' (k + 1) (natToDigits n.natAbs) with hds
  set ip := ds.take (ds.length - k) with hip
  set fp := ds.drop (ds.length - k) with hfp
  set fpOut : List Char := if k = 0 then ['0'] else fp with hfpOut
  have hdsdig : ∀ c ∈ ds, c.isDigit = true := by
    rw [hds]
    exact leftPad_chars (natToDigits_digits _) (by decide) (k + 1)
  have hdslen : k + 1 ≤ ds.length := by
    rw [hds]
    unfold leftPad
    rw [List.length_append, List.length_replicate]
    omega
  have hiplen : ip.length = ds.length - k := by
    rw [hip, List.length_take]
    omega
  have hip_ne : ip ≠ [] := by
    intro h0
    rw [h0] at hiplen
    simp at hiplen
    omega
  have hfplen : fp.length = k := by
    rw [hfp, List.length_drop]
    omega
  have hipfp : ip ++ fp = ds := by
    rw [hip, hfp]
    exact List.take_append_drop _ _
  have hipdig : ∀ c ∈ ip, c.isDigit = true := by
    intro c hc
    rw [hip] at hc
    exact hdsdig c (List.take_subset _ _ hc)
  have hfpdig : ∀ c ∈ fp, c.isDigit = true := by
    intro c hc
    rw [hfp] at hc
    exact hdsdig c (List.drop_subset _ _ hc)
  have hfpOutdig : ∀ c ∈ fpOut, c.isDigit = true := by
    rw [hfpOut]
    split
    · intro c hc
      rw [List.mem_singleton] at hc
      rw [hc]
      decide
    · exact hfpdig
  have hval : digitsVal ip * 10 ^ k + digitsVal fp = n.natAbs := by
    have h1 : digitsVal ds = n.natAbs := by
      rw [hds, digitsVal_leftPad]
      exact digitsVal_natToDigits _
    rw [← h1, ← hipfp, digitsVal_append, hfplen]
  have hmant : ((digitsVal ip : ℚ) + (digitsVal fpOut : ℚ) / 10 ^ fpOut.length)
      = (n.natAbs : ℚ) / 10 ^ k := by
    rw [hfpOut]
    split
    · next hk0 =>
      subst hk0
      have hfp0 : fp = [] := List.length_eq_zero.mp hfplen
      rw [hfp0] at hval
      have hipv : digitsVal ip = n.natAbs := by
        have h0 : digitsVal ([] : List Char) = 0 := rfl
        rw [h0] at hval
        simpa using hval
      have h00 : digitsVal ['0'] = 0 := rfl
      rw [hipv, h00]
      norm_num
    · next hk0 =>
      have hvq : ((digitsVal ip : ℚ)) * 10 ^ k + (digitsVal fp : ℚ) = (n.natAbs : ℚ) := by
        exact_mod_cast hval
      rw [hfplen]
      field_simp
      linarith [hvq]
  have hspan : spanDigits (ip ++ '.' :: fpOut) = (ip, '.' :: fpOut) :=
    spanDigits_exact ip ('.' :: fpOut) hipdig
      (by intro c hc; injection hc with hc; rw [← hc]; rfl)
  have hfrac : readFrac ('.' :: fpOut) = (fpOut, []) := by
    show spanDigits fpOut = (fpOut, [])
    have h := spanDigits_exact fpOut [] hfpOutdig (by intro c hc; simp at hc)
    simpa using h
  have hcond : ¬ (ip = [] ∧ fpOut = []) := fun hi => hip_ne hi.1
  have hcore : ∀ sgn : ℚ, pyFloatCore sgn (ip ++ '.' :: fpOut)
      = some (sgn * ((digitsVal ip : ℚ) + (digitsVal fpOut : ℚ) / 10 ^ fpOut.length)) := by
    intro sgn
    unfold pyFloatCore
    simp only [hspan, hfrac]
    rw [if_neg hcond]
    rfl
  rcases le_or_lt 0 n with hn | hn
  · have hsign : (if n < 0 then ['-'] else ([] : List Char)) = [] :=
      if_neg (by omega)
    rw [hrender, hsign, List.nil_append]
    obtain ⟨c0, t0, hct⟩ : ∃ c0 t0, ip = c0 :: t0 := by
      rcases hipc : ip with _ | ⟨c0, t0⟩
      · exact absurd hipc hip_ne
      · exact ⟨c0, t0, rfl⟩
    have hc0 : c0.isDigit = true := hipdig c0 (by rw [hct]; simp)
    have hc0m : c0 ≠ '-' := by
      intro h'
      rw [h'] at hc0
      exact absurd hc0 (by decide)
    have hc0p : c0 ≠ '+' := by
      intro h'
      rw [h'] at hc0
      exact absurd hc0 (by decide)
    have hsig : readSignQ (ip ++ '.' :: fpOut) = (1, ip ++ '.' :: fpOut) := by
      rw [hct]
      show readSignQ (c0 :: (t0 ++ '.' :: fpOut)) = (1, c0 :: (t0 ++ '.' :: fpOut))
      simp [readSignQ, hc0m, hc0p]
    unfold pyFloat?
    rw [hsig]
    show pyFloatCore 1 (ip ++ '.' :: fpOut) = some ((n : ℚ) / 10 ^ k)
    rw [hcore 1, one_mul, hmant]
    congr 1
    have hcast' : ((n.natAbs : ℕ) : ℚ) = (n : ℚ) := by
      rw [Int.cast_natAbs]
      exact_mod_cast abs_of_nonneg hn
    rw [hcast']
  · have hsign : (if n < 0 then ['-'] else ([] : List Char)) = ['-'] := if_pos hn
    rw [hrender, hsign]
    show pyFloat? ('-' :: (ip ++ '.' :: fpOut)) = some ((n : ℚ) / 10 ^ k)
    have hsig : readSignQ ('-' :: (ip ++ '.' :: fpOut)) = (-1, ip ++ '.' :: fpOut) := rfl
    unfold pyFloat?
    rw [hsig]
    show pyFloatCore (-1) (ip ++ '.' :: fpOut) = some ((n : ℚ) / 10 ^ k)
    rw [hcore (-1), hmant]
    congr 1
    have habs' : ((n.natAbs : ℕ) : ℚ) = -(n : ℚ) := by
      rw [Int.cast_natAbs]
      exact_mod_cast abs_of_nonpos (le_of_lt hn)
    rw [habs']
    ring

/-- A rational is float-like when some decimal exponent makes it integral;
every value a Python float can hold satisfies this. -/
abbrev FloatLike (q : ℚ) : Prop := decExpQ q ≠ none

theorem pyFloatStr_inverse (q : ℚ) (h : FloatLike q) :
    pyFloat? (pyFloatStrL q) = some q := by
  obtain ⟨k, hk⟩ : ∃ k, decExpQ q = some k := by
    cases hropt : decExpQ q with
    | none => exact absurd hropt h
    | some k => exact ⟨k, rfl⟩
  have hden : (q * 10 ^ k).den = 1 := by
    have hp := List.find?_some hk
    exact of_decide_eq_true hp
  have hq : ((q * 10 ^ k).num : ℚ) = q * 10 ^ k := (Rat.den_eq_one_iff _).mp hden
  have hstr : pyFloatStrL q = renderDecL (q * 10 ^ k).num k := by
    unfold pyFloatStrL
    rw [hk]
  rw [hstr, pyFloat?_renderDecL]
  congr 1
  rw [hq]
  have h10 : (10 : ℚ) ^ k ≠ 0 := by positivity
  field_simp

theorem parseTokens_map (r : List ℚ) (h : ∀ q ∈ r, FloatLike q) :
    parseTokens (r.map pyFloatStrL) = some r := by
  induction r with
  | nil => rfl
  | cons q t ih =>
    show parseTokens (pyFloatStrL q :: t.map pyFloatStrL) = some (q :: t)
    have h1 : pyFloat? (pyFloatStrL q) = some q :=
      pyFloatStr_inverse q (h q (by simp))
    have h2 : parseTokens (t.map pyFloatStrL) = some t :=
      ih (fun a ha => h a (by simp [ha]))
    simp [parseTokens, h1, h2]

/-! ### Splitting joined tokens and lines recovers them -/

theorem splitWsAux_through : ∀ (t : List Char), (∀ c ∈ t, isPySpace c = false) →
    ∀ (l acc : List Char), splitWsAux (t ++ l) acc = splitWsAux l (t.reverse ++ acc) := by
  intro t
  induction t with
  | nil => intro _ l acc; rfl
  | cons c t' ih =>
    intro h l acc
    have hc : isPySpace c = false := h c (by simp)
    show splitWsAux (c :: (t' ++ l)) acc = _
    rw [splitWsAux]
    rw [hc]
    show splitWsAux (t' ++ l) (c :: acc) = _
    rw [ih (fun a ha => h a (by simp [ha])) l (c :: acc)]
    rw [List.reverse_cons, List.append_assoc]
    rfl

theorem splitWsAux_final (t : List Char) (ht : t ≠ []) :
    splitWsAux [] t.reverse = [t] := by
  rw [splitWsAux]
  rw [if_neg (by simpa using ht)]
  rw [List.reverse_reverse]

theorem splitWsAux_space (l acc : List Char) (hacc : acc ≠ []) :
    splitWsAux (' ' :: l) acc = acc.reverse :: splitWsAux l [] := by
  rw [splitWsAux]
  rw [if_pos (show isPySpace ' ' = true from rfl)]
  rw [if_neg hacc]

theorem splitWs_join : ∀ (tokens : List (List Char)), tokens ≠ [] →
    (∀ t ∈ tokens, t ≠ [] ∧ ∀ c ∈ t, isPySpace c = false) →
    splitWs (joinSep ' ' tokens) = tokens := by
  intro tokens
  induction tokens with
  | nil => intro h; exact absurd rfl h
  | cons t ts ih =>
    intro _ hall
    obtain ⟨htne, htns⟩ := hall t (by simp)
    cases ts with
    | nil =>
      show splitWsAux (joinSep ' ' [t]) [] = [t]
      have hj : joinSep ' ' [t] = t ++ [] := by simp [joinSep]
      rw [hj, splitWsAux_through t htns [] [], List.append_nil]
      exact splitWsAux_final t htne
    | cons t2 ts' =>
      show splitWsAux (joinSep ' ' (t :: t2 :: ts')) [] = t :: t2 :: ts'
      have hj : joinSep ' ' (t :: t2 :: ts') = t ++ ' ' :: joinSep ' ' (t2 :: ts') := rfl
      rw [hj, splitWsAux_through t htns _ [], List.append_nil]
      rw [splitWsAux_space _ _ (by simpa using htne), List.reverse_reverse]
      refine congrArg (t :: ·) ?_
      exact ih (by simp) (fun a ha => hall a (by simp [ha]))

theorem splitlinesAux_through : ∀ (t : List Char),
    (∀ c ∈ t, c ≠ '\n' ∧ c ≠ '\r') →
    ∀ (l acc : List Char), splitlinesAux (t ++ l) acc = splitlinesAux l (t.reverse ++ acc) := by
  intro t
  induction t with
  | nil => intro _ l acc; rfl
  | cons c t' ih =>
    intro h l acc
    obtain ⟨hcn, hcr⟩ := h c (by simp)
    show splitlinesAux (c :: (t' ++ l)) acc = _
    have hstep : splitlinesAux (c :: (t' ++ l)) acc = splitlinesAux (t' ++ l) (c :: acc) := by
      simp [splitlinesAux, hcn, hcr]
    rw [hstep, ih (fun a ha => h a (by simp [ha])) l (c :: acc)]
    rw [List.reverse_cons, List.append_assoc]
    rfl

theorem splitlinesAux_final (t : List Char) (ht : t ≠ []) :
    splitlinesAux [] t.reverse = [t] := by
  rw [splitlinesAux]
  rw [if_neg (by simpa using ht)]
  rw [List.reverse_reverse]

theorem splitlinesAux_newline (l acc : List Char) :
    splitlinesAux ('\n' :: l) acc = acc.reverse :: splitlinesAux l [] := by
  simp [splitlinesAux]

theorem splitlinesC_join : ∀ (lines : List (List Char)), lines ≠ [] →
    (∀ ln ∈ lines, ln ≠ [] ∧ ∀ c ∈ ln, c ≠ '\n' ∧ c ≠ '\r') →
    splitlinesC (joinSep '\n' lines) = lines := by
  intro lines
  induction lines with
  | nil => intro h; exact absurd rfl h
  | cons ln ls ih =>
    intro _ hall
    obtain ⟨hlne, hlns⟩ := hall ln (by simp)
    cases ls with
    | nil =>
      show splitlinesAux (joinSep '\n' [ln]) [] = [ln]
      have hj : joinSep '\n' [ln] = ln ++ [] := by simp [joinSep]
      rw [hj, splitlinesAux_through ln hlns [] [], List.append_nil]
      exact splitlinesAux_final ln hlne
    | cons ln2 ls' =>
      show splitlinesAux (joinSep '\n' (ln :: ln2 :: ls')) [] = ln :: ln2 :: ls'
      have hj : joinSep '\n' (ln :: ln2 :: ls')
          = ln ++ '\n' :: joinSep '\n' (ln2 :: ls') := rfl
      rw [hj, splitlinesAux_through ln hlns _ [], List.append_nil,
        splitlinesAux_newline, List.reverse_reverse]
      refine congrArg (ln :: ·) ?_
      exact ih (by simp) (fun a ha => hall a (by simp [ha]))

/-! ### Boundary characters of joined lists -/

theorem joinSep_ne_nil (sep : Char) (x : List Char) (ts : List (List Char))
    (hx : x ≠ []) : joinSep sep (x :: ts) ≠ [] := by
  cases ts with
  | nil => exact hx
  | cons y ts' =>
    show x ++ sep :: joinSep sep (y :: ts') ≠ []
    simp

theorem joinSep_head? (sep : Char) (x : List Char) (ts : List (List Char))
    (hx : x ≠ []) : (joinSep sep (x :: ts)).head? = x.head? := by
  cases ts with
  | nil => rfl
  | cons y ts' =>
    show (x ++ sep :: joinSep sep (y :: ts')).head? = x.head?
    rw [List.head?_append]
    cases hxc : x.head? with
    | none => exact absurd (List.head?_eq_none_iff.mp hxc) hx
    | some c => rfl

theorem joinSep_getLast?_mem (sep : Char) : ∀ (ls : List (List Char)), ls ≠ [] →
    (∀ y ∈ ls, y ≠ []) → ∃ y ∈ ls, (joinSep sep ls).getLast? = y.getLast? := by
  intro ls
  induction ls with
  | nil => intro h; exact absurd rfl h
  | cons x ts ih =>
    intro _ hall
    cases ts with
    | nil => exact ⟨x, by simp, rfl⟩
    | cons y ts' =>
      obtain ⟨z, hz, hzl⟩ := ih (by simp) (fun a ha => hall a (by simp [ha]))
      refine ⟨z, by simp [hz], ?_⟩
      show (x ++ sep :: joinSep sep (y :: ts')).getLast? = z.getLast?
      rw [List.getLast?_append]
      have hjne : joinSep sep (y :: ts') ≠ [] :=
        joinSep_ne_nil sep y ts' (hall y (by simp))
      have hsome : ∃ c, (joinSep sep (y :: ts')).getLast? = some c := by
        cases hc : (joinSep sep (y :: ts')).getLast? with
        | none => exact absurd (List.getLast?_eq_none_iff.mp hc) hjne
        | some c => exact ⟨c, rfl⟩
      obtain ⟨c, hc⟩ := hsome
      have hlc : (sep :: joinSep sep (y :: ts')).getLast? = some c := by
        show ([sep] ++ joinSep sep (y :: ts')).getLast? = some c
        rw [List.getLast?_append, hc]
        rfl
      rw [hlc]
      show some c = z.getLast?
      rw [← hc, hzl]

theorem joinSep_chars (sep : Char) : ∀ (ls : List (List Char)) (c : Char),
    c ∈ joinSep sep ls → c = sep ∨ ∃ y ∈ ls, c ∈ y := by
  intro ls
  induction ls with
  | nil => intro c hc; simp [joinSep] at hc
  | cons x ts ih =>
    intro c hc
    cases ts with
    | nil =>
      right
      exact ⟨x, by simp, hc⟩
    | cons y ts' =>
      have hc' : c ∈ x ++ sep :: joinSep sep (y :: ts') := hc
      rw [List.mem_append, List.mem_cons] at hc'
      rcases hc' with hc' | hc' | hc'
      · right; exact ⟨x, by simp, hc'⟩
      · left; exact hc'
      · rcases ih c hc' with h | ⟨z, hz, hcz⟩
        · left; exact h
        · right; exact ⟨z, by simp [hz], hcz⟩

theorem stripChars_eq_self (l : List Char)
    (h1 : ∀ c, l.head? = some c → isPySpace c = false)
    (h2 : ∀ c, l.getLast? = some c → isPySpace c = false) :
    stripChars l = l := by
  have hd : l.dropWhile isPySpace = l := by
    cases l with
    | nil => rfl
    | cons a t =>
      rw [List.dropWhile_cons]
      simp [h1 a rfl]
  unfold stripChars
  rw [hd]
  have hd2 : l.reverse.dropWhile isPySpace = l.reverse := by
    cases hr : l.reverse with
    | nil => rfl
    | cons a t =>
      have ha : l.getLast? = some a := by
        rw [← List.head?_reverse, hr]
        rfl
      rw [List.dropWhile_cons]
      simp [h2 a ha]
  rw [hd2, List.reverse_reverse]

theorem replaceComma_eq_self (l : List Char) (h : ∀ c ∈ l, c ≠ ',') :
    replaceComma l = l := by
  unfold replaceComma
  have hcong : ∀ c ∈ l, (if c = ',' then ' ' else c) = id c := by
    intro c hc
    rw [if_neg (h c hc)]
    rfl
  rw [List.map_congr_left hcong, List.map_id]

/-! ### The round-trip of a rendered grid -/

theorem mem_of_head? {α : Type} {l : List α} {a : α} (h : l.head? = some a) :
    a ∈ l := by
  cases l with
  | nil => simp at h
  | cons b t =>
    injection h with h
    rw [← h]
    exact List.mem_cons_self _ _

theorem mem_of_getLast? {α : Type} {l : List α} {a : α} (h : l.getLast? = some a) :
    a ∈ l := by
  rw [← List.head?_reverse] at h
  exact List.mem_reverse.mp (mem_of_head? h)

theorem parseLine_lineOf (r : List ℚ) (hr : r ≠ []) (hq : ∀ q ∈ r, FloatLike q) :
    parseLine (joinSep ' ' (r.map pyFloatStrL)) = some r := by
  unfold parseLine tokensOf
  have hnc : ∀ c ∈ joinSep ' ' (r.map pyFloatStrL), c ≠ ',' := by
    intro c hc
    rcases joinSep_chars ' ' _ c hc with rfl | ⟨y, hy, hcy⟩
    · decide
    · obtain ⟨q, _, rfl⟩ := List.mem_map.mp hy
      exact (numChar_ne (pyFloatStrL_chars q c hcy)).1
  have htok : ∀ t ∈ r.map pyFloatStrL, t ≠ [] ∧ ∀ c ∈ t, isPySpace c = false := by
    intro t ht
    obtain ⟨q, _, rfl⟩ := List.mem_map.mp ht
    exact ⟨pyFloatStrL_ne_nil q,
      fun c hc => numChar_not_space (pyFloatStrL_chars q c hc)⟩
  rw [replaceComma_eq_self _ hnc, splitWs_join _ (by simpa using hr) htok]
  exact parseTokens_map r hq

theorem lineOf_boundary_numChar (r : List ℚ) (hr : r ≠ []) :
    (∀ c, (joinSep ' ' (r.map pyFloatStrL)).head? = some c → numChar c)
    ∧ (∀ c, (joinSep ' ' (r.map pyFloatStrL)).getLast? = some c → numChar c) := by
  obtain ⟨q1, rt, rfl⟩ : ∃ q1 rt, r = q1 :: rt := by
    rcases r with _ | ⟨q1, rt⟩
    · exact absurd rfl hr
    · exact ⟨q1, rt, rfl⟩
  constructor
  · intro c hc
    rw [show (q1 :: rt).map pyFloatStrL = pyFloatStrL q1 :: rt.map pyFloatStrL
        from rfl] at hc
    rw [joinSep_head? ' ' _ _ (pyFloatStrL_ne_nil q1)] at hc
    exact pyFloatStrL_chars q1 c (mem_of_head? hc)
  · intro c hc
    have hall : ∀ y ∈ (q1 :: rt).map pyFloatStrL, y ≠ [] := by
      intro y hy
      obtain ⟨q, _, rfl⟩ := List.mem_map.mp hy
      exact pyFloatStrL_ne_nil q
    obtain ⟨y, hy, hyl⟩ :=
      joinSep_getLast?_mem ' ' ((q1 :: rt).map pyFloatStrL) (by simp) hall
    rw [hyl] at hc
    obtain ⟨q, _, rfl⟩ := List.mem_map.mp hy
    exact pyFloatStrL_chars q c (mem_of_getLast? hc)

/-- Claim C3: for every valid grid (non-empty, rectangular, at least one
column) whose entries are float-like (exact decimals, as every Python float
value is), parsing the rendered text gives back exactly the same grid. -/
theorem parse_matrix_roundtrip (g : Grid) (hg : g ≠ []) (hrect : Rect g)
    (hcol : 0 < ncols g) (hdec : ∀ r ∈ g, ∀ q ∈ r, FloatLike q) :
    parse_matrix (matrix_to_text g) = .ok g := by
  set lines := g.map (fun r => joinSep ' ' (r.map pyFloatStrL)) with hlines
  have hdata : (matrix_to_text g).data = joinSep '\n' lines := rfl
  have hlines_ne : lines ≠ [] := by
    rw [hlines]
    simpa using hg
  have hrows_ne : ∀ r ∈ g, r ≠ [] := by
    intro r hrm h0
    rw [h0] at hrm
    have := hrect [] hrm
    simp at this
    omega
  have hline_ne : ∀ ln ∈ lines, ln ≠ [] := by
    intro ln hln
    rw [hlines] at hln
    obtain ⟨r, hrm, rfl⟩ := List.mem_map.mp hln
    obtain ⟨q1, rt, rfl⟩ : ∃ q1 rt, r = q1 :: rt := by
      rcases r with _ | ⟨q1, rt⟩
      · exact absurd rfl (hrows_ne _ hrm)
      · exact ⟨q1, rt, rfl⟩
    exact joinSep_ne_nil ' ' _ _ (pyFloatStrL_ne_nil q1)
  have hline_chars : ∀ ln ∈ lines, ∀ c ∈ ln, c ≠ '\n' ∧ c ≠ '\r' := by
    intro ln hln c hc
    rw [hlines] at hln
    obtain ⟨r, _, rfl⟩ := List.mem_map.mp hln
    rcases joinSep_chars ' ' _ c hc with rfl | ⟨y, hy, hcy⟩
    · exact ⟨by decide, by decide⟩
    · obtain ⟨q, _, rfl⟩ := List.mem_map.mp hy
      exact (numChar_ne (pyFloatStrL_chars q c hcy)).2
  have hline_strip : ∀ ln ∈ lines, stripChars ln = ln := by
    intro ln hln
    rw [hlines] at hln
    obtain ⟨r, hrm, rfl⟩ := List.mem_map.mp hln
    have hb := lineOf_boundary_numChar r (hrows_ne r hrm)
    exact stripChars_eq_self _
      (fun c hc => numChar_not_space (hb.1 c hc))
      (fun c hc => numChar_not_space (hb.2 c hc))
  have hstrip : stripChars (joinSep '\n' lines) = joinSep '\n' lines := by
    obtain ⟨ln1, lrest, hl1⟩ : ∃ ln1 lrest, lines = ln1 :: lrest := by
      rcases hlc : lines with _ | ⟨ln1, lrest⟩
      · exact absurd hlc hlines_ne
      · exact ⟨ln1, lrest, rfl⟩
    apply stripChars_eq_self
    · intro c hc
      rw [hl1, joinSep_head? '\n' _ _ (hline_ne ln1 (by rw [hl1]; simp))] at hc
      have hln1 : ln1 ∈ lines := by rw [hl1]; simp
      rw [hlines] at hln1
      obtain ⟨r, hrm, hre⟩ := List.mem_map.mp hln1
      rw [← hre] at hc
      exact numChar_not_space
        ((lineOf_boundary_numChar r (hrows_ne r hrm)).1 c hc)
    · intro c hc
      obtain ⟨ln, hln, hlnl⟩ :=
        joinSep_getLast?_mem '\n' lines hlines_ne hline_ne
      rw [hlnl] at hc
      have hln' := hln
      rw [hlines] at hln'
      obtain ⟨r, hrm, hre⟩ := List.mem_map.mp hln'
      rw [← hre] at hc
      exact numChar_not_space
        ((lineOf_boundary_numChar r (hrows_ne r hrm)).2 c hc)
  have hsplit : splitlinesC (joinSep '\n' lines) = lines :=
    splitlinesC_join lines hlines_ne
      (fun ln hln => ⟨hline_ne ln hln, hline_chars ln hln⟩)
  have hmapstrip : lines.map stripChars = lines := by
    have hcong : ∀ ln ∈ lines, stripChars ln = id ln := fun ln hln => hline_strip ln hln
    rw [List.map_congr_left hcong, List.map_id]
  have hnb : nonBlankLinesL (matrix_to_text g).data = lines := by
    unfold nonBlankLinesL
    rw [hdata, hstrip, hsplit, hmapstrip]
    rw [List.filter_eq_self.mpr]
    intro ln hln
    exact decide_eq_true (hline_ne ln hln)
  have hforall : List.Forall₂ (fun l r => parseLine l = some r) lines g := by
    rw [hlines, List.forall₂_map_left_iff, List.forall₂_same]
    intro r hrm
    exact parseLine_lineOf r (hrows_ne r hrm) (hdec r hrm)
  have hok : parseRows lines = .ok g := (parseRows_ok_forall₂ _ _).mpr hforall
  simp only [parse_matrix]
  rw [hnb, if_neg hlines_ne, hok]
  show (if (g.map List.length).dedup.length = 1 then Except.ok g
    else Except.error Err.raggedRows) = Except.ok g
  rw [if_pos ((all_lengths_iff g hg).mpr hrect)]

/-- Witness for C3 at a concrete grid: the rendered text of
`[[1/2, 3], [-2, 7/4]]` parses back to the same grid. -/
theorem parse_matrix_roundtrip_witness :
    parse_matrix (matrix_to_text [[(1:ℚ)/2, 3], [-2, 7/4]])
      = .ok [[(1:ℚ)/2, 3], [-2, 7/4]] :=
  parse_matrix_roundtrip [[(1:ℚ)/2, 3], [-2, 7/4]] (by decide)
    (by decide) (by decide) (by with_unfolding_all decide)

end MatrixTool
